import Mathlib

/-!
Verification of the txt-autocomplete word-completion engine.

The development shallowly embeds the plugin's Trie (insert / search /
searchFuzzy with an incrementally computed optimal-string-alignment
dynamic-programming row, subtree pruning, and mid-traversal buffer
compaction), the suggestion merge layer (getSuggestions), the case
reconstruction helper (matchCase), and the older main.js Trie variant that
supports removal with bottom-up pruning.

Strings are modelled as lists of characters; JavaScript `Map` children are
modelled as association lists in insertion order (a `set` of a fresh key
appends, a `set` of a present key updates in place, iteration follows the
list). `toLowerCase`/`toUpperCase` are modelled per character via
`Char.toLower`/`Char.toUpper`, adequate for the ASCII dictionaries the
plugin handles, and `localeCompare` is modelled as lexicographic
comparison on code points, which agrees with it on the all-lowercase words
the trie stores. JavaScript's `Array.prototype.sort` is stable by
specification, so sorts are modelled by a stable insertion sort.
-/

/-- Model of JavaScript `s.toLowerCase()` as a per-character ASCII fold. -/
def lower (s : List Char) : List Char := s.map Char.toLower

/-- Model of JavaScript `s.toUpperCase()` as a per-character ASCII fold. -/
def upper (s : List Char) : List Char := s.map Char.toUpper

/-- Lexicographic comparison on code points; models `a.localeCompare(b) <= 0`
for the lowercase ASCII words stored in the trie. -/
def lexLe : List Char → List Char → Bool
  | [], _ => true
  | _ :: _, [] => false
  | a :: as, b :: bs => if a = b then lexLe as bs else decide (a < b)

/-- Lookup in a JavaScript `Map` modelled as an association list
(`children.get(c)` / `children.has(c)`). -/
def alistLookup {α : Type} : List (Char × α) → Char → Option α
  | [], _ => none
  | (c', v) :: rest, c => if c' = c then some v else alistLookup rest c

/-- `children.set(c, v)`: update in place if the key is present, else append
(JavaScript `Map` preserves insertion order). -/
def alistSet {α : Type} : List (Char × α) → Char → α → List (Char × α)
  | [], c, v => [(c, v)]
  | (c', v') :: rest, c, v => if c' = c then (c, v) :: rest else (c', v') :: alistSet rest c v

/-- `children.delete(c)`: remove the key, preserving the order of the rest. -/
def alistDelete {α : Type} : List (Char × α) → Char → List (Char × α)
  | [], _ => []
  | (c', v') :: rest, c => if c' = c then rest else (c', v') :: alistDelete rest c

/-- The current plugin's `TrieNode`: an insertion-ordered children map and an
"is a complete word" flag. -/
inductive Trie : Type where
  | node (isWord : Bool) (children : List (Char × Trie))

/-- The `isWord` field of a node. -/
def Trie.isWord : Trie → Bool
  | .node w _ => w

/-- The `children` field of a node. -/
def Trie.children : Trie → List (Char × Trie)
  | .node _ cs => cs

/-- `new TrieNode()`: no children, not a word. -/
def Trie.empty : Trie := .node false []

/-- The loop body of `Trie.insert`: walk/create nodes along the (already
lowercased) character path and mark the terminal node as a word. -/
def insertAux : Trie → List Char → Trie
  | .node _ cs, [] => .node true cs
  | .node w cs, c :: rest =>
    let child :=
      match alistLookup cs c with
      | some u => u
      | none => Trie.empty
    .node w (alistSet cs c (insertAux child rest))

/-- `Trie.insert(word)` of the current plugin: no-op on the empty string,
otherwise canonicalize to lowercase and mark the path's terminal node. -/
def Trie.insert (t : Trie) (word : List Char) : Trie :=
  if word = [] then t else insertAux t (lower word)

/-- The navigation loop shared by `search`: follow the prefix characters
through the children maps, failing fast if a character is missing. -/
def findNode : Trie → List Char → Option Trie
  | t, [] => some t
  | t, c :: rest =>
    match alistLookup t.children c with
    | none => none
    | some child => findNode child rest

mutual

/-- `Trie._collect` of the current plugin: stop once `limit` results are
gathered, emit the node's own word first, then descend into the children in
map (insertion) order. -/
def collect : Trie → List Char → List (List Char) → Nat → List (List Char)
  | .node isW cs, pre, results, limit =>
    if limit ≤ results.length then results
    else collectChildren cs pre (if isW then results ++ [pre] else results) limit

/-- The `for (const [k, child] of node.children)` loop of `Trie._collect`,
with its early `break` once `limit` results are gathered. -/
def collectChildren : List (Char × Trie) → List Char → List (List Char) → Nat → List (List Char)
  | [], _, results, _ => results
  | (k, child) :: rest, pre, results, limit =>
    if limit ≤ results.length then results
    else collectChildren rest pre (collect child (pre ++ [k]) results limit) limit

end

/-- `Trie.search(prefix, limit)` of the current plugin: empty query gives an
empty result; otherwise navigate to the prefix node and collect words. -/
def Trie.search (t : Trie) (pre : List Char) (limit : Nat) : List (List Char) :=
  if pre = [] then []
  else
    match findNode t (lower pre) with
    | none => []
    | some u => collect u (lower pre) [] limit

/-- The body of the inner `for (let j = 1; j < prevRow.length; j++)` loop of
`Trie._fuzzyDfs`, as a function of the column index: entry `0` is
`prevRow[0] + 1`, and entry `j + 1` is the Damerau-Levenshtein minimum over
the left, upper, and diagonal neighbours plus the adjacent-transposition
candidate read from the grandparent row. -/
def rowVal (query : List Char) (ch : Char) (prevChar : Option Char) (prevRow : List Nat)
    (prevPrevRow : Option (List Nat)) : Nat → Nat
  | 0 => prevRow.getD 0 0 + 1
  | j + 1 =>
    let cost : Nat := if query.getD j 'a' = ch then 0 else 1
    let v := min (min (rowVal query ch prevChar prevRow prevPrevRow j + 1)
      (prevRow.getD (j + 1) 0 + 1)) (prevRow.getD j 0 + cost)
    match prevPrevRow with
    | some pp =>
      if 1 ≤ j ∧ ch = query.getD (j - 1) 'a' ∧ prevChar = some (query.getD j 'a') then
        min v (pp.getD (j - 1) 0 + 1)
      else v
    | none => v

/-- The dynamic-programming row `currRow` built by `Trie._fuzzyDfs` when
descending the edge labelled `ch`; it has the same length as `prevRow`. -/
def computeRow (query : List Char) (ch : Char) (prevChar : Option Char) (prevRow : List Nat)
    (prevPrevRow : Option (List Nat)) : List Nat :=
  (List.range prevRow.length).map (rowVal query ch prevChar prevRow prevPrevRow)

/-- `rowMin` of `Trie._fuzzyDfs`: the running minimum over the row, seeded
with entry `0`. -/
def minRow : List Nat → Nat
  | [] => 0
  | x :: xs => xs.foldl min x

/-- The comparator of the mid-traversal compaction `(a, b) => a.dist - b.dist`
(ties keep buffer order thanks to sort stability). -/
def cmpDist (a b : List Char × Nat) : Prop := a.2 ≤ b.2

instance : DecidableRel cmpDist := fun a b => inferInstanceAs (Decidable (a.2 ≤ b.2))

/-- The final comparator `(a, b) => a.dist - b.dist || a.word.localeCompare(b.word)`. -/
def cmpDistWord (a b : List Char × Nat) : Prop :=
  a.2 < b.2 ∨ (a.2 = b.2 ∧ lexLe a.1 b.1 = true)

instance : DecidableRel cmpDistWord := fun a b =>
  inferInstanceAs (Decidable (a.2 < b.2 ∨ (a.2 = b.2 ∧ lexLe a.1 b.1 = true)))

/-- The candidate-emission step of `Trie._fuzzyDfs`: push `(newPre, dist)`
when the child is a word within budget, then compact the buffer (stable sort
by distance, truncate to `limit * 2`) once it exceeds `limit * 4` entries. -/
def fuzzyPush (child : Trie) (newPre : List Char) (dist maxEdits : Nat)
    (results : List (List Char × Nat)) (limit : Nat) : List (List Char × Nat) :=
  if child.isWord = true ∧ dist ≤ maxEdits then
    let pushed := results ++ [(newPre, dist)]
    if limit * 4 < pushed.length then (List.insertionSort cmpDist pushed).take (limit * 2)
    else pushed
  else results

mutual

/-- `Trie._fuzzyDfs` of the current plugin, entered at a node. -/
def fuzzyDfs : Trie → List Char → Option Char → List Char → List Nat → Option (List Nat) →
    Nat → List (List Char × Nat) → Nat → List (List Char × Nat)
  | .node _ cs, pre, prevChar, query, prevRow, prevPrevRow, maxEdits, results, limit =>
    fuzzyDfsChildren cs pre prevChar query prevRow prevPrevRow maxEdits results limit

/-- The `for (const [ch, child] of node.children)` loop of `Trie._fuzzyDfs`:
compute the child row, emit via `fuzzyPush` (the `dist` argument is
`currRow[currRow.length - 1]`), and descend only while the row minimum stays
within budget. -/
def fuzzyDfsChildren : List (Char × Trie) → List Char → Option Char → List Char → List Nat →
    Option (List Nat) → Nat → List (List Char × Nat) → Nat → List (List Char × Nat)
  | [], _, _, _, _, _, _, results, _ => results
  | (ch, child) :: rest, pre, prevChar, query, prevRow, prevPrevRow, maxEdits, results, limit =>
    let currRow := computeRow query ch prevChar prevRow prevPrevRow
    let results1 := fuzzyPush child (pre ++ [ch]) (currRow.getD (currRow.length - 1) 0)
      maxEdits results limit
    let results2 :=
      if minRow currRow ≤ maxEdits then
        fuzzyDfs child (pre ++ [ch]) (some ch) query currRow (some prevRow) maxEdits
          results1 limit
      else results1
    fuzzyDfsChildren rest pre prevChar query prevRow prevPrevRow maxEdits results2 limit

end

/-- `Trie.searchFuzzy(term, maxEdits, limit)` of the current plugin. -/
def Trie.searchFuzzy (t : Trie) (term : List Char) (maxEdits limit : Nat) :
    List (List Char × Nat) :=
  if term = [] then []
  else
    let query := lower term
    let firstRow := List.range (query.length + 1)
    let results := fuzzyDfs t [] none query firstRow none maxEdits [] limit
    (List.insertionSort cmpDistWord results).take limit

/-- The `for (const {word} of fuzzy)` merge loop of
`TextAutocompletePlugin.getSuggestions`: append fuzzy words not yet seen
(case-insensitively) and different from the query, stopping at `limit`. -/
def mergeFuzzy : List (List Char × Nat) → List (List Char) → List (List Char) → List Char →
    Nat → List (List Char)
  | [], ex, _, _, _ => ex
  | (word, _) :: rest, ex, seen, prefLower, limit =>
    let lw := lower word
    if lw ∉ seen ∧ lw ≠ prefLower then
      let ex1 := ex ++ [word]
      if limit ≤ ex1.length then ex1
      else mergeFuzzy rest ex1 (seen ++ [lw]) prefLower limit
    else mergeFuzzy rest ex seen prefLower limit

/-- `TextAutocompletePlugin.getSuggestions(prefix)` of the current plugin,
with the two settings it reads (`maxSuggestions`, `fuzzyEdits`) passed
explicitly. -/
def getSuggestions (t : Trie) (maxSuggestions fuzzyEdits : Nat) (pre : List Char) :
    List (List Char) :=
  let limit := maxSuggestions
  let ex := t.search pre (limit * 2)
  let ex1 :=
    if ex.length < limit then
      mergeFuzzy (t.searchFuzzy pre fuzzyEdits (limit * 3)) ex (ex.map lower) (lower pre) limit
    else ex
  ex1.take limit

/-- `TextAutocompletePlugin.matchCase(word, original)` of the current plugin
(`part_000`), including its leading `if (!original) return word;` guard. On
an empty `word` the second and third JavaScript branches would fault on
`word[0]`; live callers never pass one, and the model returns `[]` there. -/
def matchCase (word original : List Char) : List Char :=
  if original = [] then word
  else if original = upper original then upper word
  else if original.headD 'a' = Char.toUpper (original.headD 'a') then
    match word with
    | [] => []
    | w :: ws => Char.toUpper w :: ws.map Char.toLower
  else lower word

/-- The `matchCase` of the older `main.js` variants, which lack the empty
`original` guard (an empty string equals its own uppercasing, so they
uppercase the whole word). -/
def matchCaseMain (word original : List Char) : List Char :=
  if original = upper original then upper word
  else if original.headD 'a' = Char.toUpper (original.headD 'a') then
    match word with
    | [] => []
    | w :: ws => Char.toUpper w :: ws.map Char.toLower
  else lower word

/-! ## The older `main.js` Trie with removal (second variant in `main.js`) -/

/-- The `TrieNode` of the main.js removal-capable variant: children map,
word flag, usage frequency, and the stored word at terminal nodes. -/
inductive Trie2 : Type where
  | node (children : List (Char × Trie2)) (isWord : Bool) (frequency : Nat)
    (word : Option (List Char))

/-- The `children` field. -/
def Trie2.children : Trie2 → List (Char × Trie2)
  | .node cs _ _ _ => cs

/-- The `isWord` field. -/
def Trie2.isWord : Trie2 → Bool
  | .node _ w _ _ => w

/-- `new TrieNode()` of the main.js variant. -/
def Trie2.empty : Trie2 := .node [] false 0 none

/-- The walk/create loop of the main.js `insert(word, frequency)`; `full` is
the lowercased word recorded at the terminal node. -/
def insert2Aux : Trie2 → List Char → List Char → Nat → Trie2
  | .node cs _ fr wd, [], full, freq =>
    let _ := wd
    .node cs true (fr + freq) (some full)
  | .node cs isW fr wd, c :: rest, full, freq =>
    let child :=
      match alistLookup cs c with
      | some u => u
      | none => Trie2.empty
    .node (alistSet cs c (insert2Aux child rest full freq)) isW fr wd

/-- `Trie.insert(word, frequency)` of the main.js variant, with its
`!word || word.length < 2` guard. The store-level `wordCount` bookkeeping is
not modelled; no claim concerns it. -/
def Trie2.insert (t : Trie2) (word : List Char) (freq : Nat) : Trie2 :=
  if word = [] ∨ word.length < 2 then t
  else insert2Aux t (lower word) (lower word) freq

/-- `Trie._removeHelper(node, word, index)`: returns the updated node and the
"should delete me" flag (`true` when the caller must drop the edge to this
node). -/
def removeHelper : Trie2 → List Char → Trie2 × Bool
  | .node cs isW fr wd, [] =>
    if isW then (.node cs false fr none, cs.isEmpty) else (.node cs isW fr wd, cs.isEmpty)
  | .node cs isW fr wd, c :: rest =>
    match alistLookup cs c with
    | none => (.node cs isW fr wd, false)
    | some child =>
      let r := removeHelper child rest
      if r.2 then
        let cs' := alistDelete cs c
        (.node cs' isW fr wd, cs'.isEmpty && !isW)
      else (.node (alistSet cs c r.1) isW fr wd, false)

/-- `Trie.remove(word)` of the main.js variant: lowercase, then run the
recursive helper from the root (the root itself is never deleted). -/
def Trie2.remove (t : Trie2) (word : List Char) : Trie2 :=
  (removeHelper t (lower word)).1

/-- Prefix navigation of the main.js variant's `search`. -/
def findNode2 : Trie2 → List Char → Option Trie2
  | t, [] => some t
  | t, c :: rest =>
    match alistLookup t.children c with
    | none => none
    | some child => findNode2 child rest

mutual

/-- `Trie._collectWords` of the main.js variant: gather `(word, frequency)`
records, skipping `excludeWord`, stopping at `limit`. -/
def collectWords2 : Trie2 → List Char → List (List Char × Nat) → Nat → Option (List Char) →
    List (List Char × Nat)
  | .node cs isW fr wd, pre, results, limit, excl =>
    if limit ≤ results.length then results
    else
      collectWords2Children cs pre
        (if isW = true ∧ wd ≠ excl then results ++ [(wd.getD [], fr)] else results) limit excl

/-- The children loop of `Trie._collectWords`. -/
def collectWords2Children : List (Char × Trie2) → List Char → List (List Char × Nat) → Nat →
    Option (List Char) → List (List Char × Nat)
  | [], _, results, _, _ => results
  | (c, child) :: rest, pre, results, limit, excl =>
    if limit ≤ results.length then results
    else collectWords2Children rest pre (collectWords2 child (pre ++ [c]) results limit excl)
      limit excl

end

/-- The main.js variant's result comparator: frequency descending, then
`localeCompare` on the words. -/
def cmpFreqWord (a b : List Char × Nat) : Prop :=
  b.2 < a.2 ∨ (a.2 = b.2 ∧ lexLe a.1 b.1 = true)

instance : DecidableRel cmpFreqWord := fun a b =>
  inferInstanceAs (Decidable (b.2 < a.2 ∨ (a.2 = b.2 ∧ lexLe a.1 b.1 = true)))

/-- `Trie.search(prefix, limit, excludeWord)` of the main.js variant. -/
def Trie2.search (t : Trie2) (pre : List Char) (limit : Nat) (excl : Option (List Char)) :
    List (List Char) :=
  if pre = [] then []
  else
    match findNode2 t (lower pre) with
    | none => []
    | some u =>
      ((List.insertionSort cmpFreqWord (collectWords2 u (lower pre) [] limit excl)).take
        limit).map Prod.fst

mutual

/-- The structural invariant of the main.js trie: below the root, every node
has a non-empty children map or a set word flag (no dead nodes). -/
def pruned : Trie2 → Bool
  | .node cs _ _ _ => prunedChildren cs

/-- `pruned` over a children list. -/
def prunedChildren : List (Char × Trie2) → Bool
  | [] => true
  | (_, t) :: rest => (!t.children.isEmpty || t.isWord) && pruned t && prunedChildren rest

end

/-- A mutation of the main.js trie store: an insert (with its frequency
argument) or a remove. -/
inductive Op2 : Type where
  | ins (word : List Char) (freq : Nat)
  | rem (word : List Char)

/-- Apply a sequence of mutations to a main.js trie. -/
def applyOps : List Op2 → Trie2 → Trie2
  | [], t => t
  | .ins w f :: rest, t => applyOps rest (t.insert w f)
  | .rem w :: rest, t => applyOps rest (t.remove w)

/-! ## Specification-side definitions -/

/-- Fuel-indexed optimal-string-alignment recurrence; `osaD` instantiates the
fuel with `i + j`, which `osaGo_eq` below shows is always sufficient, so the
defining equations of the textbook recurrence hold (`osaD_succ_succ`). -/
def osaGo (a b : List Char) : Nat → Nat → Nat → Nat
  | _, 0, j => j
  | _, i + 1, 0 => i + 1
  | 0, _ + 1, _ + 1 => 0
  | fuel + 1, i + 1, j + 1 =>
    let cost : Nat := if b.getD j 'a' = a.getD i 'a' then 0 else 1
    let v := min (min (osaGo a b fuel (i + 1) j + 1) (osaGo a b fuel i (j + 1) + 1))
      (osaGo a b fuel i j + cost)
    if 1 ≤ i ∧ 1 ≤ j ∧ a.getD i 'a' = b.getD (j - 1) 'a' ∧ a.getD (i - 1) 'a' = b.getD j 'a' then
      min v (osaGo a b fuel (i - 1) (j - 1) + 1)
    else v

/-- `osaD a b i j` is the optimal-string-alignment distance between the first
`i` characters of `a` and the first `j` characters of `b` (unit-cost
insertions, deletions, substitutions, adjacent transpositions). -/
def osaD (a b : List Char) (i j : Nat) : Nat := osaGo a b (i + j) i j

/-- Optimal-string-alignment distance between two strings. -/
def osa (a b : List Char) : Nat := osaD a b a.length b.length

/-- The full dynamic-programming row for word prefix `w` against query `q`:
entry `j` is the distance between `w` and the first `j` query characters. -/
def osaRow (q w : List Char) : List Nat :=
  (List.range (q.length + 1)).map (fun j => osaD w q w.length j)

mutual

/-- All words stored at or below a node, in depth-first child order, with
`pre` the path from the root to the node. -/
def wordsBelow : Trie → List Char → List (List Char)
  | .node isW cs, pre => (if isW then [pre] else []) ++ wordsBelowChildren cs pre

/-- `wordsBelow` over a children list. -/
def wordsBelowChildren : List (Char × Trie) → List Char → List (List Char)
  | [], _ => []
  | (c, t) :: rest, pre => wordsBelow t (pre ++ [c]) ++ wordsBelowChildren rest pre

end

/-- The words stored in a trie. -/
def storedWords (t : Trie) : List (List Char) := wordsBelow t []

/-- The fuzzy candidates below a children list: every word paired with its
distance to the (already lowercased) query, filtered to the budget. -/
def candidatesBelow (cs : List (Char × Trie)) (pre q : List Char) (k : Nat) :
    List (List Char × Nat) :=
  (wordsBelowChildren cs pre).filterMap
    (fun w => if osa w q ≤ k then some (w, osa w q) else none)

/-- All stored words within distance `k` of the lowercased query, with their
distances, in depth-first order. -/
def qualPairs (t : Trie) (term : List Char) (k : Nat) : List (List Char × Nat) :=
  (storedWords t).filterMap
    (fun w => if osa w (lower term) ≤ k then some (w, osa w (lower term)) else none)

/-- A list of characters with no duplicates (Boolean version). -/
def keysDistinct : List Char → Bool
  | [] => true
  | c :: rest => decide (c ∉ rest) && keysDistinct rest

mutual

/-- Well-formedness of a trie as it arises from `Map`-based code: every
children list has pairwise-distinct keys. -/
def trieWF : Trie → Bool
  | .node _ cs => keysDistinct (cs.map Prod.fst) && trieWFChildren cs

/-- `trieWF` over a children list. -/
def trieWFChildren : List (Char × Trie) → Bool
  | [] => true
  | (_, t) :: rest => trieWF t && trieWFChildren rest

end

mutual

/-- Every edge label in the trie is lowercase-fixed, as `insert`'s
canonicalization guarantees. -/
def lowerTrie : Trie → Bool
  | .node _ cs => lowerChildren cs

/-- `lowerTrie` over a children list. -/
def lowerChildren : List (Char × Trie) → Bool
  | [] => true
  | (c, t) :: rest => decide (Char.toLower c = c) && lowerTrie t && lowerChildren rest

end

/-- A list of characters in strictly increasing order. -/
def keysSorted : List Char → Bool
  | [] => true
  | [_] => true
  | a :: b :: rest => decide (a < b) && keysSorted (b :: rest)

mutual

/-- Every children list of the trie is in strictly increasing key order (as
in the first main.js variant, whose `_collect` sorts the keys, or when words
were inserted so that children were created alphabetically). -/
def sortedTrie : Trie → Bool
  | .node _ cs => keysSorted (cs.map Prod.fst) && sortedTrieChildren cs

/-- `sortedTrie` over a children list. -/
def sortedTrieChildren : List (Char × Trie) → Bool
  | [] => true
  | (_, t) :: rest => sortedTrie t && sortedTrieChildren rest

end

/-! ## Lemmas about the optimal-string-alignment recurrence -/

theorem osaGo_eq (a b : List Char) :
    ∀ n f1 f2 i j, i + j ≤ n → i + j ≤ f1 → i + j ≤ f2 →
      osaGo a b f1 i j = osaGo a b f2 i j := by
  intro n
  induction n with
  | zero =>
    intro f1 f2 i j h _ _
    match i, j with
    | 0, j => simp [osaGo]
    | i + 1, 0 => simp [osaGo]
    | i + 1, j + 1 => omega
  | succ n ih =>
    intro f1 f2 i j h h1 h2
    match i, j with
    | 0, j => simp [osaGo]
    | i + 1, 0 => simp [osaGo]
    | i + 1, j + 1 =>
      match f1, f2 with
      | g1 + 1, g2 + 1 =>
        show osaGo a b (g1 + 1) (i + 1) (j + 1) = osaGo a b (g2 + 1) (i + 1) (j + 1)
        rw [osaGo, osaGo]
        rw [ih g1 g2 (i + 1) j (by omega) (by omega) (by omega),
          ih g1 g2 i (j + 1) (by omega) (by omega) (by omega),
          ih g1 g2 i j (by omega) (by omega) (by omega),
          ih g1 g2 (i - 1) (j - 1) (by omega) (by omega) (by omega)]

theorem osaGo_fuel (a b : List Char) (f i j : Nat) (h : i + j ≤ f) :
    osaGo a b f i j = osaD a b i j :=
  osaGo_eq a b f f (i + j) i j h h le_rfl

theorem osaD_zero_left (a b : List Char) (j : Nat) : osaD a b 0 j = j := by
  simp [osaD, osaGo]

theorem osaD_zero_right (a b : List Char) (i : Nat) : osaD a b i 0 = i := by
  match i with
  | 0 => rfl
  | i + 1 => rfl

/-- The defining recurrence of the optimal-string-alignment distance. -/
theorem osaD_succ_succ (a b : List Char) (i j : Nat) :
    osaD a b (i + 1) (j + 1) =
      (let cost : Nat := if b.getD j 'a' = a.getD i 'a' then 0 else 1
      let v := min (min (osaD a b (i + 1) j + 1) (osaD a b i (j + 1) + 1))
        (osaD a b i j + cost)
      if 1 ≤ i ∧ 1 ≤ j ∧ a.getD i 'a' = b.getD (j - 1) 'a' ∧
          a.getD (i - 1) 'a' = b.getD j 'a' then
        min v (osaD a b (i - 1) (j - 1) + 1)
      else v) := by
  show osaGo a b (i + 1 + (j + 1)) (i + 1) (j + 1) = _
  rw [show i + 1 + (j + 1) = (i + j + 1) + 1 by omega]
  rw [osaGo]
  rw [osaGo_fuel a b _ (i + 1) j (by omega), osaGo_fuel a b _ i (j + 1) (by omega),
    osaGo_fuel a b _ i j (by omega), osaGo_fuel a b _ (i - 1) (j - 1) (by omega)]

theorem osaD_succ_succ_pos (a b : List Char) (i j : Nat)
    (h : 1 ≤ i ∧ 1 ≤ j ∧ a.getD i 'a' = b.getD (j - 1) 'a' ∧
      a.getD (i - 1) 'a' = b.getD j 'a') :
    osaD a b (i + 1) (j + 1) =
      min (min (min (osaD a b (i + 1) j + 1) (osaD a b i (j + 1) + 1))
        (osaD a b i j + if b.getD j 'a' = a.getD i 'a' then 0 else 1))
        (osaD a b (i - 1) (j - 1) + 1) := by
  rw [osaD_succ_succ]
  simp only [h, and_self, if_true]

theorem osaD_succ_succ_neg (a b : List Char) (i j : Nat)
    (h : ¬(1 ≤ i ∧ 1 ≤ j ∧ a.getD i 'a' = b.getD (j - 1) 'a' ∧
      a.getD (i - 1) 'a' = b.getD j 'a')) :
    osaD a b (i + 1) (j + 1) =
      min (min (osaD a b (i + 1) j + 1) (osaD a b i (j + 1) + 1))
        (osaD a b i j + if b.getD j 'a' = a.getD i 'a' then 0 else 1) := by
  rw [osaD_succ_succ]
  simp only [h, if_false]

/-- A substitution step never worsens the distance by more than one. -/
theorem osaD_succ_succ_le (a b : List Char) (i j : Nat) :
    osaD a b (i + 1) (j + 1) ≤ osaD a b i j + 1 := by
  have hc : (if b.getD j 'a' = a.getD i 'a' then 0 else 1) ≤ 1 := by
    split <;> omega
  by_cases h : 1 ≤ i ∧ 1 ≤ j ∧ a.getD i 'a' = b.getD (j - 1) 'a' ∧
      a.getD (i - 1) 'a' = b.getD j 'a'
  · rw [osaD_succ_succ_pos a b i j h]
    have := min_le_right (min (osaD a b (i + 1) j + 1) (osaD a b i (j + 1) + 1))
      (osaD a b i j + if b.getD j 'a' = a.getD i 'a' then 0 else 1)
    omega
  · rw [osaD_succ_succ_neg a b i j h]
    have := min_le_right (min (osaD a b (i + 1) j + 1) (osaD a b i (j + 1) + 1))
      (osaD a b i j + if b.getD j 'a' = a.getD i 'a' then 0 else 1)
    omega

/-- `osaD a b i j` depends on `a` only through its first `i` characters. -/
theorem osaD_congr (b : List Char) :
    ∀ n (a a' : List Char) i j, i + j ≤ n →
      (∀ x, x < i → a.getD x 'a' = a'.getD x 'a') → osaD a b i j = osaD a' b i j := by
  intro n
  induction n with
  | zero =>
    intro a a' i j h _
    match i, j with
    | 0, j => rw [osaD_zero_left, osaD_zero_left]
    | i + 1, 0 => rw [osaD_zero_right, osaD_zero_right]
    | i + 1, j + 1 => omega
  | succ n ih =>
    intro a a' i j h hx
    match i, j with
    | 0, j => rw [osaD_zero_left, osaD_zero_left]
    | i + 1, 0 => rw [osaD_zero_right, osaD_zero_right]
    | i + 1, j + 1 =>
      rw [osaD_succ_succ, osaD_succ_succ]
      rw [hx i (by omega), hx (i - 1) (by omega)]
      rw [ih a a' (i + 1) j (by omega) hx,
        ih a a' i (j + 1) (by omega) (fun x hlt => hx x (by omega)),
        ih a a' i j (by omega) (fun x hlt => hx x (by omega)),
        ih a a' (i - 1) (j - 1) (by omega) (fun x hlt => hx x (by omega))]

/-- Appending characters beyond position `i` does not change `osaD _ _ i j`. -/
theorem osaD_append (a : List Char) (s b : List Char) (i j : Nat) (h : i ≤ a.length) :
    osaD (a ++ s) b i j = osaD a b i j := by
  apply osaD_congr b (i + j) (a ++ s) a i j le_rfl
  intro x hx
  exact List.getD_append a s 'a' x (by omega)

/-! ## Lemmas about rows and their minima -/

theorem osaRow_length (q w : List Char) : (osaRow q w).length = q.length + 1 := by
  simp [osaRow]

theorem osaRow_getD (q w : List Char) (j : Nat) (h : j ≤ q.length) :
    (osaRow q w).getD j 0 = osaD w q w.length j := by
  have hlen : j < (osaRow q w).length := by rw [osaRow_length]; omega
  rw [List.getD_eq_getElem _ 0 hlen]
  simp [osaRow]

theorem osaRow_nil (q : List Char) : osaRow q [] = List.range (q.length + 1) := by
  unfold osaRow
  rw [show (List.nil (α := Char)).length = 0 from rfl]
  have hf : (fun j => osaD ([] : List Char) q 0 j) = fun j => j :=
    funext (fun j => osaD_zero_left [] q j)
  rw [hf, List.map_id']

theorem getD_append_length (w : List Char) (c : Char) : (w ++ [c]).getD w.length 'a' = c := by
  have h : w.length < (w ++ [c]).length := by simp
  rw [List.getD_eq_getElem _ 'a' h]
  simp

theorem foldl_min_le_init : ∀ (l : List Nat) (a : Nat), l.foldl min a ≤ a
  | [], _ => le_rfl
  | x :: xs, a => le_trans (foldl_min_le_init xs (min a x)) (min_le_left a x)

theorem foldl_min_le_mem : ∀ (l : List Nat) (a x : Nat), x ∈ l → l.foldl min a ≤ x
  | x' :: xs, a, x, h => by
    rcases List.mem_cons.mp h with h1 | h2
    · subst h1
      exact le_trans (foldl_min_le_init xs (min a x)) (min_le_right a x)
    · exact foldl_min_le_mem xs (min a x') x h2

theorem le_foldl_min : ∀ (l : List Nat) (a m : Nat), m ≤ a → (∀ x ∈ l, m ≤ x) →
    m ≤ l.foldl min a
  | [], _, _, ha, _ => ha
  | x :: xs, a, m, ha, h =>
    le_foldl_min xs (min a x) m (le_min ha (h x (by simp)))
      (fun y hy => h y (List.mem_cons_of_mem x hy))

theorem minRow_le_getD (l : List Nat) (j : Nat) (h : j < l.length) : minRow l ≤ l.getD j 0 := by
  match l, j with
  | x :: xs, 0 => exact foldl_min_le_init xs x
  | x :: xs, j + 1 =>
    show xs.foldl min x ≤ (x :: xs).getD (j + 1) 0
    rw [List.getD_cons_succ]
    apply foldl_min_le_mem
    have hj : j < xs.length := by simpa using h
    rw [List.getD_eq_getElem xs 0 hj]
    exact List.getElem_mem hj

theorem le_minRow (l : List Nat) (m : Nat) (hne : l ≠ [])
    (h : ∀ j, j < l.length → m ≤ l.getD j 0) : m ≤ minRow l := by
  match l with
  | x :: xs =>
    apply le_foldl_min
    · exact h 0 (by simp)
    · intro y hy
      obtain ⟨j, hj, hyv⟩ := List.getElem_of_mem hy
      have := h (j + 1) (by simp; omega)
      rw [List.getD_cons_succ, List.getD_eq_getElem xs 0 hj, hyv] at this
      exact this

theorem minRow_le_osa (q w : List Char) : minRow (osaRow q w) ≤ osa w q := by
  have h := minRow_le_getD (osaRow q w) q.length (by rw [osaRow_length]; omega)
  rwa [osaRow_getD q w q.length le_rfl] at h

theorem minRow_osaRow_entry (q w : List Char) (c : Char) :
    ∀ j, j ≤ q.length → minRow (osaRow q w) ≤ osaD (w ++ [c]) q (w.length + 1) j := by
  have hpar : ∀ x, x ≤ q.length → minRow (osaRow q w) ≤ osaD w q w.length x := by
    intro x hx
    have h := minRow_le_getD (osaRow q w) x (by rw [osaRow_length]; omega)
    rwa [osaRow_getD q w x hx] at h
  intro j
  induction j with
  | zero =>
    intro _
    rw [osaD_zero_right]
    have h0 := hpar 0 (by omega)
    rw [osaD_zero_right] at h0
    omega
  | succ j ih =>
    intro hj
    have hj' : j ≤ q.length := by omega
    have t1 : minRow (osaRow q w) ≤ osaD (w ++ [c]) q (w.length + 1) j + 1 := by
      have := ih hj'
      omega
    have t2 : minRow (osaRow q w) ≤ osaD (w ++ [c]) q w.length (j + 1) + 1 := by
      rw [osaD_append w [c] q w.length (j + 1) le_rfl]
      have := hpar (j + 1) hj
      omega
    have t3 : minRow (osaRow q w) ≤ osaD (w ++ [c]) q w.length j +
        if q.getD j 'a' = (w ++ [c]).getD w.length 'a' then 0 else 1 := by
      rw [osaD_append w [c] q w.length j le_rfl]
      exact le_trans (hpar j hj') (Nat.le_add_right _ _)
    by_cases hcond : 1 ≤ w.length ∧ 1 ≤ j ∧ (w ++ [c]).getD w.length 'a' = q.getD (j - 1) 'a' ∧
        (w ++ [c]).getD (w.length - 1) 'a' = q.getD j 'a'
    · rw [osaD_succ_succ_pos (w ++ [c]) q w.length j hcond]
      have t4 : minRow (osaRow q w) ≤ osaD (w ++ [c]) q (w.length - 1) (j - 1) + 1 := by
        have hle := osaD_succ_succ_le (w ++ [c]) q (w.length - 1) (j - 1)
        rw [show w.length - 1 + 1 = w.length by omega, show j - 1 + 1 = j by omega] at hle
        have hm : minRow (osaRow q w) ≤ osaD (w ++ [c]) q w.length j := by
          rw [osaD_append w [c] q w.length j le_rfl]
          exact hpar j hj'
        omega
      exact le_min (le_min (le_min t1 t2) t3) t4
    · rw [osaD_succ_succ_neg (w ++ [c]) q w.length j hcond]
      exact le_min (le_min t1 t2) t3

theorem minRow_osaRow_mono (q w : List Char) (c : Char) :
    minRow (osaRow q w) ≤ minRow (osaRow q (w ++ [c])) := by
  apply le_minRow
  · intro hnil
    have := osaRow_length q (w ++ [c])
    rw [hnil] at this
    simp at this
  · intro j hj
    have hj' : j ≤ q.length := by rw [osaRow_length] at hj; omega
    rw [osaRow_getD q (w ++ [c]) j hj']
    rw [show (w ++ [c]).length = w.length + 1 by simp]
    exact minRow_osaRow_entry q w c j hj'

theorem minRow_osaRow_append (q : List Char) : ∀ (s w : List Char),
    minRow (osaRow q w) ≤ minRow (osaRow q (w ++ s))
  | [], w => by simp
  | c :: s', w => by
    have h1 := minRow_osaRow_mono q w c
    have h2 := minRow_osaRow_append q s' (w ++ [c])
    rw [show w ++ c :: s' = (w ++ [c]) ++ s' by simp] at *
    omega

/-! ## The incremental row of `_fuzzyDfs` computes the OSA rows -/

/-- The invariant carried by `_fuzzyDfs`: the current row is the OSA row of
the path `w`, and the previous character / grandparent row are those of `w`'s
last step (absent at the root). -/
def RowState (q w : List Char) (prevChar : Option Char) (prevRow : List Nat)
    (prevPrevRow : Option (List Nat)) : Prop :=
  prevRow = osaRow q w ∧
    ((w = [] ∧ prevChar = none ∧ prevPrevRow = none) ∨
      (∃ w0 c0, w = w0 ++ [c0] ∧ prevChar = some c0 ∧ prevPrevRow = some (osaRow q w0)))

theorem rowVal_zero (q : List Char) (c : Char) (pc : Option Char) (pr : List Nat)
    (ppr : Option (List Nat)) : rowVal q c pc pr ppr 0 = pr.getD 0 0 + 1 := rfl

theorem rowVal_succ_none (q : List Char) (c : Char) (pc : Option Char) (pr : List Nat)
    (j : Nat) :
    rowVal q c pc pr none (j + 1) =
      min (min (rowVal q c pc pr none j + 1) (pr.getD (j + 1) 0 + 1))
        (pr.getD j 0 + if q.getD j 'a' = c then 0 else 1) := rfl

theorem rowVal_succ_some (q : List Char) (c : Char) (pc : Option Char) (pr pp : List Nat)
    (j : Nat) :
    rowVal q c pc pr (some pp) (j + 1) =
      (if 1 ≤ j ∧ c = q.getD (j - 1) 'a' ∧ pc = some (q.getD j 'a') then
        min (min (min (rowVal q c pc pr (some pp) j + 1) (pr.getD (j + 1) 0 + 1))
          (pr.getD j 0 + if q.getD j 'a' = c then 0 else 1)) (pp.getD (j - 1) 0 + 1)
      else
        min (min (rowVal q c pc pr (some pp) j + 1) (pr.getD (j + 1) 0 + 1))
          (pr.getD j 0 + if q.getD j 'a' = c then 0 else 1)) := rfl

theorem rowVal_state (q w : List Char) (c : Char) (pc : Option Char)
    (ppr : Option (List Nat))
    (hcase : (w = [] ∧ pc = none ∧ ppr = none) ∨
      (∃ w0 c0, w = w0 ++ [c0] ∧ pc = some c0 ∧ ppr = some (osaRow q w0))) :
    ∀ j, j ≤ q.length →
      rowVal q c pc (osaRow q w) ppr j = osaD (w ++ [c]) q (w.length + 1) j := by
  intro j
  induction j with
  | zero =>
    intro _
    rw [rowVal_zero, osaRow_getD q w 0 (by omega), osaD_zero_right, osaD_zero_right]
  | succ j ih =>
    intro hj
    have hj' : j ≤ q.length := by omega
    have ihj := ih hj'
    have hup : (osaRow q w).getD (j + 1) 0 = osaD (w ++ [c]) q w.length (j + 1) := by
      rw [osaRow_getD q w (j + 1) hj, osaD_append w [c] q w.length (j + 1) le_rfl]
    have hdiag : (osaRow q w).getD j 0 = osaD (w ++ [c]) q w.length j := by
      rw [osaRow_getD q w j hj', osaD_append w [c] q w.length j le_rfl]
    have hcost : (w ++ [c]).getD w.length 'a' = c := getD_append_length w c
    rcases hcase with ⟨hw, hpc, hppr⟩ | ⟨w0, c0, hw, hpc, hppr⟩
    · subst hw
      subst hpc
      subst hppr
      rw [rowVal_succ_none]
      rw [osaD_succ_succ_neg ([] ++ [c]) q (List.length ([] : List Char)) j (by simp)]
      rw [ihj, hup, hdiag, hcost]
    · subst hw
      subst hpc
      subst hppr
      rw [rowVal_succ_some]
      have h1w : 1 ≤ (w0 ++ [c0]).length := by simp
      have hprev : (w0 ++ [c0] ++ [c]).getD ((w0 ++ [c0]).length - 1) 'a' = c0 := by
        rw [show (w0 ++ [c0]).length - 1 = w0.length by simp]
        rw [List.getD_append (w0 ++ [c0]) [c] 'a' w0.length (by simp)]
        exact getD_append_length w0 c0
      have htr : (osaRow q w0).getD (j - 1) 0 =
          osaD (w0 ++ [c0] ++ [c]) q ((w0 ++ [c0]).length - 1) (j - 1) := by
        rw [osaRow_getD q w0 (j - 1) (by omega)]
        have e1 : osaD (w0 ++ [c0] ++ [c]) q ((w0 ++ [c0]).length - 1) (j - 1) =
            osaD (w0 ++ [c0]) q ((w0 ++ [c0]).length - 1) (j - 1) :=
          osaD_append (w0 ++ [c0]) [c] q _ _ (by simp)
        have e2 : osaD (w0 ++ [c0]) q ((w0 ++ [c0]).length - 1) (j - 1) =
            osaD w0 q ((w0 ++ [c0]).length - 1) (j - 1) :=
          osaD_append w0 [c0] q _ _ (by simp)
        rw [e1, e2, show (w0 ++ [c0]).length - 1 = w0.length by simp]
      by_cases hc2 : 1 ≤ j ∧ c = q.getD (j - 1) 'a' ∧ c0 = q.getD j 'a'
      · have hcL : 1 ≤ j ∧ c = q.getD (j - 1) 'a' ∧
            (some c0 : Option Char) = some (q.getD j 'a') :=
          ⟨hc2.1, hc2.2.1, by rw [hc2.2.2]⟩
        rw [if_pos hcL]
        rw [osaD_succ_succ_pos (w0 ++ [c0] ++ [c]) q (w0 ++ [c0]).length j
          ⟨h1w, hc2.1, hcost.trans hc2.2.1, hprev.trans hc2.2.2⟩]
        rw [ihj, hup, hdiag, hcost, htr]
      · have hcL : ¬(1 ≤ j ∧ c = q.getD (j - 1) 'a' ∧
            (some c0 : Option Char) = some (q.getD j 'a')) := by
          intro hcon
          exact hc2 ⟨hcon.1, hcon.2.1, Option.some.inj hcon.2.2⟩
        rw [if_neg hcL]
        rw [osaD_succ_succ_neg (w0 ++ [c0] ++ [c]) q (w0 ++ [c0]).length j (by
          intro hcon
          exact hc2 ⟨hcon.2.1, hcost.symm.trans hcon.2.2.1, hprev.symm.trans hcon.2.2.2⟩)]
        rw [ihj, hup, hdiag, hcost]

theorem computeRow_state (q w : List Char) (c : Char) (pc : Option Char) (pr : List Nat)
    (ppr : Option (List Nat)) (hst : RowState q w pc pr ppr) :
    computeRow q c pc pr ppr = osaRow q (w ++ [c]) := by
  obtain ⟨hpr, hcase⟩ := hst
  subst hpr
  unfold computeRow
  rw [osaRow_length]
  unfold osaRow
  rw [show (w ++ [c]).length = w.length + 1 by simp]
  apply List.map_congr_left
  intro j hjmem
  have hj : j ≤ q.length := by
    have := List.mem_range.mp hjmem
    omega
  exact rowVal_state q w c pc ppr hcase j hj

theorem RowState_step (q w : List Char) (c : Char) (pc : Option Char) (pr : List Nat)
    (ppr : Option (List Nat)) (hst : RowState q w pc pr ppr) :
    RowState q (w ++ [c]) (some c) (computeRow q c pc pr ppr) (some pr) := by
  refine ⟨computeRow_state q w c pc pr ppr hst, Or.inr ⟨w, c, rfl, rfl, ?_⟩⟩
  rw [hst.1]

theorem RowState_init (q : List Char) :
    RowState q [] none (List.range (q.length + 1)) none :=
  ⟨(osaRow_nil q).symm, Or.inl ⟨rfl, rfl, rfl⟩⟩

theorem RowState_dist (q w : List Char) (c : Char) (pc : Option Char) (pr : List Nat)
    (ppr : Option (List Nat)) (hst : RowState q w pc pr ppr) :
    (computeRow q c pc pr ppr).getD ((computeRow q c pc pr ppr).length - 1) 0 =
      osa (w ++ [c]) q := by
  rw [computeRow_state q w c pc pr ppr hst, osaRow_length]
  rw [show q.length + 1 - 1 = q.length from rfl]
  rw [osaRow_getD q (w ++ [c]) q.length le_rfl]
  rfl

/-! ## Structural induction for the nested trie and word-enumeration lemmas -/

theorem children_ind (P : List (Char × Trie) → Prop) (hnil : P [])
    (hcons : ∀ (c : Char) (t : Trie) (rest : List (Char × Trie)),
      P t.children → P rest → P ((c, t) :: rest)) :
    ∀ cs, P cs := by
  have H : ∀ n cs, sizeOf cs ≤ n → P cs := by
    intro n
    induction n with
    | zero =>
      intro cs h
      exfalso
      cases cs with
      | nil => simp at h
      | cons x rest => simp at h
    | succ n ih =>
      intro cs h
      match cs with
      | [] => exact hnil
      | (c, t) :: rest =>
        have h1 : sizeOf t.children < sizeOf t := by
          match t with
          | .node w cs' => simp [Trie.children]
        have h2 : sizeOf t < sizeOf ((c, t) :: rest) := by
          simp
          omega
        have h3 : sizeOf rest < sizeOf ((c, t) :: rest) := by simp
        exact hcons c t rest (ih t.children (by omega)) (ih rest (by omega))
  intro cs
  exact H (sizeOf cs) cs le_rfl

theorem wordsBelow_eq (isW : Bool) (cs : List (Char × Trie)) (pre : List Char) :
    wordsBelow (.node isW cs) pre = (if isW then [pre] else []) ++ wordsBelowChildren cs pre := by
  rw [wordsBelow]

theorem wordsBelow_node (t : Trie) (pre : List Char) :
    wordsBelow t pre = (if t.isWord then [pre] else []) ++ wordsBelowChildren t.children pre := by
  match t with
  | .node isW cs => rw [wordsBelow_eq, Trie.isWord, Trie.children]

theorem wordsBelowChildren_nil (pre : List Char) : wordsBelowChildren [] pre = [] := by
  rw [wordsBelowChildren]

theorem wordsBelowChildren_cons (c : Char) (t : Trie) (rest : List (Char × Trie))
    (pre : List Char) :
    wordsBelowChildren ((c, t) :: rest) pre =
      wordsBelow t (pre ++ [c]) ++ wordsBelowChildren rest pre := by
  rw [wordsBelowChildren]

theorem mem_wordsBelow_self (t : Trie) (pre : List Char) (h : t.isWord = true) :
    pre ∈ wordsBelow t pre := by
  rw [wordsBelow_node, h]
  simp

theorem wordsBelowChildren_subset (t : Trie) (pre : List Char) :
    wordsBelowChildren t.children pre ⊆ wordsBelow t pre := by
  rw [wordsBelow_node]
  intro x hx
  simp [hx]

theorem wordsBelowChildren_shape :
    ∀ cs (pre : List Char) w, w ∈ wordsBelowChildren cs pre → ∃ s, w = pre ++ s := by
  apply children_ind (fun cs => ∀ pre w, w ∈ wordsBelowChildren cs pre → ∃ s, w = pre ++ s)
  · intro pre w hw
    rw [wordsBelowChildren_nil] at hw
    exact absurd hw (List.not_mem_nil w)
  · intro c t rest iht ihrest pre w hw
    rw [wordsBelowChildren_cons] at hw
    rcases List.mem_append.mp hw with hleft | hright
    · rw [wordsBelow_node] at hleft
      rcases List.mem_append.mp hleft with hself | hbelow
      · have : w = pre ++ [c] := by
          rcases t.isWord with _ | _ <;> simp_all
        exact ⟨[c], this⟩
      · obtain ⟨s, hs⟩ := iht (pre ++ [c]) w hbelow
        exact ⟨c :: s, by simp [hs]⟩
    · exact ihrest pre w hright

theorem wordsBelow_shape (t : Trie) (pre : List Char) (w : List Char)
    (h : w ∈ wordsBelow t pre) : ∃ s, w = pre ++ s := by
  rw [wordsBelow_node] at h
  rcases List.mem_append.mp h with hself | hbelow
  · refine ⟨[], ?_⟩
    rcases ht : t.isWord with _ | _ <;> rw [ht] at hself <;> simp_all
  · exact wordsBelowChildren_shape t.children pre w hbelow

/-! ## Soundness of the fuzzy traversal -/

theorem fuzzyDfs_eq (t : Trie) (pre : List Char) (pc : Option Char) (q : List Char)
    (pr : List Nat) (ppr : Option (List Nat)) (k : Nat) (res : List (List Char × Nat))
    (limit : Nat) :
    fuzzyDfs t pre pc q pr ppr k res limit =
      fuzzyDfsChildren t.children pre pc q pr ppr k res limit := by
  match t with
  | .node w cs => rw [fuzzyDfs, Trie.children]

theorem fuzzyDfsChildren_nil (pre : List Char) (pc : Option Char) (q : List Char)
    (pr : List Nat) (ppr : Option (List Nat)) (k : Nat) (res : List (List Char × Nat))
    (limit : Nat) : fuzzyDfsChildren [] pre pc q pr ppr k res limit = res := by
  rw [fuzzyDfsChildren]

theorem fuzzyDfsChildren_cons (ch : Char) (child : Trie) (rest : List (Char × Trie))
    (pre : List Char) (pc : Option Char) (q : List Char) (pr : List Nat)
    (ppr : Option (List Nat)) (k : Nat) (res : List (List Char × Nat)) (limit : Nat) :
    fuzzyDfsChildren ((ch, child) :: rest) pre pc q pr ppr k res limit =
      fuzzyDfsChildren rest pre pc q pr ppr k
        (if minRow (computeRow q ch pc pr ppr) ≤ k then
          fuzzyDfs child (pre ++ [ch]) (some ch) q (computeRow q ch pc pr ppr) (some pr) k
            (fuzzyPush child (pre ++ [ch])
              ((computeRow q ch pc pr ppr).getD ((computeRow q ch pc pr ppr).length - 1) 0)
              k res limit) limit
        else
          fuzzyPush child (pre ++ [ch])
            ((computeRow q ch pc pr ppr).getD ((computeRow q ch pc pr ppr).length - 1) 0)
            k res limit) limit := by
  rw [fuzzyDfsChildren]

theorem fuzzyPush_mem (child : Trie) (newPre : List Char) (dist k : Nat)
    (res : List (List Char × Nat)) (limit : Nat) (p : List Char × Nat)
    (h : p ∈ fuzzyPush child newPre dist k res limit) :
    p ∈ res ∨ (p = (newPre, dist) ∧ child.isWord = true ∧ dist ≤ k) := by
  unfold fuzzyPush at h
  by_cases hc : child.isWord = true ∧ dist ≤ k
  · rw [if_pos hc] at h
    have hmem : p ∈ res ++ [(newPre, dist)] := by
      by_cases hlen : limit * 4 < (res ++ [(newPre, dist)]).length
      · rw [if_pos hlen] at h
        exact (List.perm_insertionSort cmpDist (res ++ [(newPre, dist)])).subset
          ((List.take_sublist _ _).subset h)
      · rwa [if_neg hlen] at h
    rcases List.mem_append.mp hmem with h1 | h2
    · exact Or.inl h1
    · exact Or.inr ⟨List.mem_singleton.mp h2, hc⟩
  · rw [if_neg hc] at h
    exact Or.inl h

theorem fuzzyDfsChildren_sound :
    ∀ cs, ∀ (pre : List Char) (pc : Option Char) (q : List Char) (pr : List Nat)
      (ppr : Option (List Nat)) (k : Nat) (res : List (List Char × Nat)) (limit : Nat)
      (p : List Char × Nat),
      RowState q pre pc pr ppr →
      p ∈ fuzzyDfsChildren cs pre pc q pr ppr k res limit →
      p ∈ res ∨ (p.1 ∈ wordsBelowChildren cs pre ∧ p.2 = osa p.1 q ∧ p.2 ≤ k) := by
  apply children_ind (fun cs => ∀ pre pc q pr ppr k res limit p,
    RowState q pre pc pr ppr →
    p ∈ fuzzyDfsChildren cs pre pc q pr ppr k res limit →
    p ∈ res ∨ (p.1 ∈ wordsBelowChildren cs pre ∧ p.2 = osa p.1 q ∧ p.2 ≤ k))
  · intro pre pc q pr ppr k res limit p _ hmem
    rw [fuzzyDfsChildren_nil] at hmem
    exact Or.inl hmem
  · intro ch child rest iht ihrest pre pc q pr ppr k res limit p hst hmem
    rw [fuzzyDfsChildren_cons] at hmem
    have hpushmem : ∀ p' : List Char × Nat,
        p' ∈ fuzzyPush child (pre ++ [ch])
          ((computeRow q ch pc pr ppr).getD ((computeRow q ch pc pr ppr).length - 1) 0)
          k res limit →
        p' ∈ res ∨ (p'.1 ∈ wordsBelowChildren ((ch, child) :: rest) pre ∧
          p'.2 = osa p'.1 q ∧ p'.2 ≤ k) := by
      intro p' hp'
      rcases fuzzyPush_mem child (pre ++ [ch]) _ k res limit p' hp' with h1 | ⟨heq, hw, hd⟩
      · exact Or.inl h1
      · refine Or.inr ?_
        have hdist := RowState_dist q pre ch pc pr ppr hst
        subst heq
        refine ⟨?_, by simpa using hdist, hd⟩
        rw [wordsBelowChildren_cons]
        exact List.mem_append.mpr (Or.inl (mem_wordsBelow_self child (pre ++ [ch]) hw))
    rcases ihrest pre pc q pr ppr k _ limit p hst hmem with hin2 | hgood
    · by_cases hdesc : minRow (computeRow q ch pc pr ppr) ≤ k
      · rw [if_pos hdesc] at hin2
        rw [fuzzyDfs_eq] at hin2
        rcases iht (pre ++ [ch]) (some ch) q (computeRow q ch pc pr ppr) (some pr) k _ limit p
          (RowState_step q pre ch pc pr ppr hst) hin2 with hin1 | hgoodc
        · exact hpushmem p hin1
        · refine Or.inr ⟨?_, hgoodc.2⟩
          rw [wordsBelowChildren_cons]
          exact List.mem_append.mpr (Or.inl
            (wordsBelowChildren_subset child (pre ++ [ch]) hgoodc.1))
      · rw [if_neg hdesc] at hin2
        exact hpushmem p hin2
    · refine Or.inr ⟨?_, hgood.2⟩
      rw [wordsBelowChildren_cons]
      exact List.mem_append.mpr (Or.inr hgood.1)

/-! ## Completeness of the fuzzy traversal when the buffer is never compacted -/

theorem fuzzyPush_eq_push (child : Trie) (newPre : List Char) (dist k : Nat)
    (res : List (List Char × Nat)) (limit : Nat) (hw : child.isWord = true) (hd : dist ≤ k)
    (hlen : res.length + 1 ≤ limit * 4) :
    fuzzyPush child newPre dist k res limit = res ++ [(newPre, dist)] := by
  unfold fuzzyPush
  rw [if_pos ⟨hw, hd⟩, if_neg (by simp; omega)]

theorem fuzzyPush_eq_skip (child : Trie) (newPre : List Char) (dist k : Nat)
    (res : List (List Char × Nat)) (limit : Nat) (h : ¬(child.isWord = true ∧ dist ≤ k)) :
    fuzzyPush child newPre dist k res limit = res := by
  unfold fuzzyPush
  rw [if_neg h]

theorem candidatesBelow_nil (pre q : List Char) (k : Nat) :
    candidatesBelow [] pre q k = [] := by
  unfold candidatesBelow
  rw [wordsBelowChildren_nil]
  rfl

theorem candidatesBelow_cons (ch : Char) (child : Trie) (rest : List (Char × Trie))
    (pre q : List Char) (k : Nat) :
    candidatesBelow ((ch, child) :: rest) pre q k =
      ((if child.isWord = true then
          (if osa (pre ++ [ch]) q ≤ k then [(pre ++ [ch], osa (pre ++ [ch]) q)] else [])
        else []) ++ candidatesBelow child.children (pre ++ [ch]) q k) ++
        candidatesBelow rest pre q k := by
  unfold candidatesBelow
  rw [wordsBelowChildren_cons, List.filterMap_append, wordsBelow_node, List.filterMap_append]
  rcases hw : child.isWord with _ | _
  · simp
  · by_cases hk : osa (pre ++ [ch]) q ≤ k <;> simp [hk]

theorem candidatesBelow_pruned (cs : List (Char × Trie)) (pre q : List Char) (k : Nat)
    (h : k < minRow (osaRow q pre)) : candidatesBelow cs pre q k = [] := by
  apply List.filterMap_eq_nil_iff.mpr
  intro w hw
  obtain ⟨s, rfl⟩ := wordsBelowChildren_shape cs pre w hw
  have h1 : minRow (osaRow q pre) ≤ minRow (osaRow q (pre ++ s)) := minRow_osaRow_append q s pre
  have h2 : minRow (osaRow q (pre ++ s)) ≤ osa (pre ++ s) q := minRow_le_osa q (pre ++ s)
  rw [if_neg (by omega)]

theorem fuzzyDfsChildren_complete :
    ∀ cs, ∀ (pre : List Char) (pc : Option Char) (q : List Char) (pr : List Nat)
      (ppr : Option (List Nat)) (k : Nat) (res : List (List Char × Nat)) (limit : Nat),
      RowState q pre pc pr ppr →
      res.length + (candidatesBelow cs pre q k).length ≤ limit * 4 →
      fuzzyDfsChildren cs pre pc q pr ppr k res limit = res ++ candidatesBelow cs pre q k := by
  apply children_ind (fun cs => ∀ pre pc q pr ppr k res limit,
    RowState q pre pc pr ppr →
    res.length + (candidatesBelow cs pre q k).length ≤ limit * 4 →
    fuzzyDfsChildren cs pre pc q pr ppr k res limit = res ++ candidatesBelow cs pre q k)
  · intro pre pc q pr ppr k res limit _ _
    rw [fuzzyDfsChildren_nil, candidatesBelow_nil, List.append_nil]
  · intro ch child rest iht ihrest pre pc q pr ppr k res limit hst hlen
    rw [fuzzyDfsChildren_cons]
    have hrow : computeRow q ch pc pr ppr = osaRow q (pre ++ [ch]) :=
      computeRow_state q pre ch pc pr ppr hst
    have hdist : (computeRow q ch pc pr ppr).getD ((computeRow q ch pc pr ppr).length - 1) 0 =
        osa (pre ++ [ch]) q := RowState_dist q pre ch pc pr ppr hst
    rw [hdist, candidatesBelow_cons]
    rw [candidatesBelow_cons] at hlen
    by_cases hpush : child.isWord = true ∧ osa (pre ++ [ch]) q ≤ k
    · rw [if_pos hpush.1, if_pos hpush.2] at hlen ⊢
      have hlen' : res.length + ((candidatesBelow child.children (pre ++ [ch]) q k).length +
          (candidatesBelow rest pre q k).length + 1) ≤ limit * 4 := by
        simpa using hlen
      have hfp : fuzzyPush child (pre ++ [ch]) (osa (pre ++ [ch]) q) k res limit =
          res ++ [(pre ++ [ch], osa (pre ++ [ch]) q)] :=
        fuzzyPush_eq_push child (pre ++ [ch]) _ k res limit hpush.1 hpush.2 (by omega)
      by_cases hdesc : minRow (computeRow q ch pc pr ppr) ≤ k
      · rw [if_pos hdesc, hfp, fuzzyDfs_eq]
        rw [iht (pre ++ [ch]) (some ch) q (computeRow q ch pc pr ppr) (some pr) k _ limit
          (RowState_step q pre ch pc pr ppr hst) (by simp; omega)]
        rw [ihrest pre pc q pr ppr k _ limit hst (by simp; omega)]
        simp
      · rw [if_neg hdesc, hfp]
        have hccnil : candidatesBelow child.children (pre ++ [ch]) q k = [] := by
          apply candidatesBelow_pruned
          rw [hrow] at hdesc
          omega
        rw [hccnil] at hlen' ⊢
        rw [ihrest pre pc q pr ppr k _ limit hst (by simp; omega)]
        simp
    · have hheadnil :
          (if child.isWord = true then
            (if osa (pre ++ [ch]) q ≤ k then [(pre ++ [ch], osa (pre ++ [ch]) q)] else [])
          else []) = [] := by
        rcases not_and_or.mp hpush with h1 | h2
        · rw [if_neg h1]
        · rcases hw : child.isWord with _ | _
          · simp
          · simp [h2]
      rw [hheadnil] at hlen ⊢
      have hfp : fuzzyPush child (pre ++ [ch]) (osa (pre ++ [ch]) q) k res limit = res :=
        fuzzyPush_eq_skip child (pre ++ [ch]) _ k res limit hpush
      have hlen' : res.length + ((candidatesBelow child.children (pre ++ [ch]) q k).length +
          (candidatesBelow rest pre q k).length) ≤ limit * 4 := by
        simpa using hlen
      by_cases hdesc : minRow (computeRow q ch pc pr ppr) ≤ k
      · rw [if_pos hdesc, hfp, fuzzyDfs_eq]
        rw [iht (pre ++ [ch]) (some ch) q (computeRow q ch pc pr ppr) (some pr) k _ limit
          (RowState_step q pre ch pc pr ppr hst) (by omega)]
        rw [ihrest pre pc q pr ppr k _ limit hst (by simp; omega)]
        simp
      · rw [if_neg hdesc, hfp]
        have hccnil : candidatesBelow child.children (pre ++ [ch]) q k = [] := by
          apply candidatesBelow_pruned
          rw [hrow] at hdesc
          omega
        rw [hccnil] at hlen' ⊢
        rw [ihrest pre pc q pr ppr k _ limit hst (by omega)]
        simp

/-! ## `searchFuzzy`-level characterizations -/

theorem searchFuzzy_sound (t : Trie) (term : List Char) (k limit : Nat) (w : List Char)
    (d : Nat) (h : (w, d) ∈ t.searchFuzzy term k limit) :
    w ∈ storedWords t ∧ d = osa w (lower term) ∧ d ≤ k := by
  unfold Trie.searchFuzzy at h
  by_cases hterm : term = []
  · rw [if_pos hterm] at h
    exact absurd h (List.not_mem_nil _)
  · rw [if_neg hterm] at h
    have h2 : (w, d) ∈ fuzzyDfs t [] none (lower term)
        (List.range ((lower term).length + 1)) none k [] limit :=
      (List.perm_insertionSort cmpDistWord _).subset ((List.take_sublist _ _).subset h)
    rw [fuzzyDfs_eq] at h2
    rcases fuzzyDfsChildren_sound t.children [] none (lower term) _ none k [] limit (w, d)
      (RowState_init (lower term)) h2 with habs | hgood
    · exact absurd habs (List.not_mem_nil _)
    · exact ⟨wordsBelowChildren_subset t [] hgood.1, hgood.2⟩

theorem qualPairs_eq_candidates (t : Trie) (term : List Char) (k : Nat)
    (h : t.isWord = false) :
    qualPairs t term k = candidatesBelow t.children [] (lower term) k := by
  unfold qualPairs storedWords candidatesBelow
  rw [wordsBelow_node, h]
  simp

theorem searchFuzzy_eq_spec (t : Trie) (term : List Char) (k limit : Nat) (hterm : term ≠ [])
    (hroot : t.isWord = false) (hlen : (qualPairs t term k).length ≤ limit * 4) :
    t.searchFuzzy term k limit =
      (List.insertionSort cmpDistWord (qualPairs t term k)).take limit := by
  rw [qualPairs_eq_candidates t term k hroot] at hlen ⊢
  unfold Trie.searchFuzzy
  rw [if_neg hterm]
  show (List.insertionSort cmpDistWord (fuzzyDfs t [] none (lower term)
    (List.range ((lower term).length + 1)) none k [] limit)).take limit = _
  rw [fuzzyDfs_eq]
  rw [fuzzyDfsChildren_complete t.children [] none (lower term)
    (List.range ((lower term).length + 1)) none k [] limit (RowState_init (lower term))
    (by simpa using hlen)]
  rw [List.nil_append]

/-! ## `_collect` and `search` produce a truncated depth-first word list -/

theorem collect_node (isW : Bool) (cs : List (Char × Trie)) (pre : List Char)
    (res : List (List Char)) (limit : Nat) :
    collect (.node isW cs) pre res limit =
      if limit ≤ res.length then res
      else collectChildren cs pre (if isW then res ++ [pre] else res) limit := by
  rw [collect]

theorem collectChildren_nil (pre : List Char) (res : List (List Char)) (limit : Nat) :
    collectChildren [] pre res limit = res := by
  rw [collectChildren]

theorem collectChildren_cons (k : Char) (child : Trie) (rest : List (Char × Trie))
    (pre : List Char) (res : List (List Char)) (limit : Nat) :
    collectChildren ((k, child) :: rest) pre res limit =
      if limit ≤ res.length then res
      else collectChildren rest pre (collect child (pre ++ [k]) res limit) limit := by
  rw [collectChildren]

theorem collectChildren_take :
    ∀ cs, ∀ (pre : List Char) (res : List (List Char)) (limit : Nat),
      collectChildren cs pre res limit =
        res ++ (wordsBelowChildren cs pre).take (limit - res.length) := by
  have node_version : ∀ (t : Trie) (pre : List Char) (res : List (List Char)) (limit : Nat),
      (∀ (pre' : List Char) (res' : List (List Char)) (limit' : Nat),
        collectChildren t.children pre' res' limit' =
          res' ++ (wordsBelowChildren t.children pre').take (limit' - res'.length)) →
      collect t pre res limit = res ++ (wordsBelow t pre).take (limit - res.length) := by
    intro t pre res limit hch
    match t with
    | .node isW cs =>
      rw [collect_node]
      rw [Trie.children] at hch
      by_cases hstop : limit ≤ res.length
      · rw [if_pos hstop, show limit - res.length = 0 by omega]
        simp
      · rw [if_neg hstop]
        rw [wordsBelow_eq]
        rcases isW with _ | _
        · rw [if_neg (by simp), hch pre res limit]
          simp
        · rw [if_pos rfl, hch pre (res ++ [pre]) limit]
          rw [if_pos rfl]
          have harith : limit - res.length = (limit - (res ++ [pre]).length) + 1 := by
            simp
            omega
          rw [harith]
          simp [List.take_succ_cons]
  apply children_ind (fun cs => ∀ pre res limit,
    collectChildren cs pre res limit =
      res ++ (wordsBelowChildren cs pre).take (limit - res.length))
  · intro pre res limit
    rw [collectChildren_nil, wordsBelowChildren_nil]
    simp
  · intro k child rest iht ihrest pre res limit
    rw [collectChildren_cons, wordsBelowChildren_cons]
    by_cases hstop : limit ≤ res.length
    · rw [if_pos hstop, show limit - res.length = 0 by omega]
      simp
    · rw [if_neg hstop]
      rw [node_version child (pre ++ [k]) res limit iht]
      rw [ihrest pre (res ++ (wordsBelow child (pre ++ [k])).take (limit - res.length)) limit]
      rw [List.take_append_eq_append_take]
      have hlen : ((wordsBelow child (pre ++ [k])).take (limit - res.length)).length =
          min (limit - res.length) (wordsBelow child (pre ++ [k])).length := by
        simp
      have harith : limit - (res ++ (wordsBelow child (pre ++ [k])).take
          (limit - res.length)).length =
          limit - res.length - (wordsBelow child (pre ++ [k])).length := by
        rw [List.length_append, hlen]
        rcases Nat.le_total (wordsBelow child (pre ++ [k])).length (limit - res.length) with
          hle | hle
        · rw [Nat.min_eq_right hle]
          omega
        · rw [Nat.min_eq_left hle]
          omega
      rw [harith]
      simp

theorem collect_take (t : Trie) (pre : List Char) (res : List (List Char)) (limit : Nat) :
    collect t pre res limit = res ++ (wordsBelow t pre).take (limit - res.length) := by
  match t with
  | .node isW cs =>
    have hch : ∀ (pre' : List Char) (res' : List (List Char)) (limit' : Nat),
        collectChildren (Trie.children (.node isW cs)) pre' res' limit' =
          res' ++ (wordsBelowChildren (Trie.children (.node isW cs)) pre').take
            (limit' - res'.length) := by
      intro pre' res' limit'
      rw [Trie.children]
      exact collectChildren_take cs pre' res' limit'
    rw [collect_node]
    rw [Trie.children] at hch
    by_cases hstop : limit ≤ res.length
    · rw [if_pos hstop, show limit - res.length = 0 by omega]
      simp
    · rw [if_neg hstop]
      rw [wordsBelow_eq]
      rcases isW with _ | _
      · rw [if_neg (by simp), hch pre res limit]
        simp
      · rw [if_pos rfl, hch pre (res ++ [pre]) limit]
        rw [if_pos rfl]
        have harith : limit - res.length = (limit - (res ++ [pre]).length) + 1 := by
          simp
          omega
        rw [harith]
        simp [List.take_succ_cons]

theorem search_eq_take (t : Trie) (pre : List Char) (limit : Nat) (u : Trie) (hpre : pre ≠ [])
    (hfind : findNode t (lower pre) = some u) :
    t.search pre limit = (wordsBelow u (lower pre)).take limit := by
  unfold Trie.search
  rw [if_neg hpre, hfind]
  show collect u (lower pre) [] limit = _
  rw [collect_take]
  simp

theorem search_eq_nil (t : Trie) (pre : List Char) (limit : Nat)
    (hfind : findNode t (lower pre) = none) : t.search pre limit = [] := by
  unfold Trie.search
  by_cases hpre : pre = []
  · rw [if_pos hpre]
  · rw [if_neg hpre, hfind]

/-! ## Insertion creates a findable word node -/

theorem alistLookup_set {α : Type} :
    ∀ (cs : List (Char × α)) (c : Char) (v : α), alistLookup (alistSet cs c v) c = some v := by
  intro cs
  induction cs with
  | nil =>
    intro c v
    simp [alistSet, alistLookup]
  | cons hd rest ih =>
    intro c v
    match hd with
    | (c', v') =>
      by_cases hc : c' = c
      · rw [alistSet, if_pos hc, alistLookup, if_pos rfl]
      · rw [alistSet, if_neg hc, alistLookup, if_neg hc]
        exact ih c v

theorem findNode_insertAux :
    ∀ (p : List Char) (t : Trie), ∃ u, findNode (insertAux t p) p = some u ∧ u.isWord = true := by
  intro p
  induction p with
  | nil =>
    intro t
    match t with
    | .node w cs => exact ⟨.node true cs, rfl, rfl⟩
  | cons c rest ih =>
    intro t
    match t with
    | .node w cs =>
      obtain ⟨u, hu, hw⟩ := ih (match alistLookup cs c with | some u => u | none => Trie.empty)
      refine ⟨u, ?_, hw⟩
      rw [insertAux, findNode, Trie.children, alistLookup_set]
      exact hu

/-! ## Lexicographic order of the depth-first enumeration -/

theorem lexLe_append (pre : List Char) : ∀ s, lexLe pre (pre ++ s) = true := by
  induction pre with
  | nil =>
    intro s
    rw [lexLe]
  | cons p ps ih =>
    intro s
    show lexLe (p :: ps) (p :: (ps ++ s)) = true
    rw [lexLe, if_pos rfl]
    exact ih s

theorem lexLe_append_lt (c c' : Char) (h : c < c') :
    ∀ (pre s s' : List Char), lexLe (pre ++ c :: s) (pre ++ c' :: s') = true := by
  intro pre
  induction pre with
  | nil =>
    intro s s'
    show lexLe (c :: s) (c' :: s') = true
    rw [lexLe, if_neg (by intro he; subst he; exact lt_irrefl c h)]
    simpa using h
  | cons p ps ih =>
    intro s s'
    show lexLe (p :: (ps ++ c :: s)) (p :: (ps ++ c' :: s')) = true
    rw [lexLe, if_pos rfl]
    exact ih s s'

theorem keysSorted_pairwise : ∀ l, keysSorted l = true → List.Pairwise (· < ·) l := by
  intro l
  induction l with
  | nil => intro _; exact List.Pairwise.nil
  | cons a rest ih =>
    intro h
    match rest with
    | [] => exact List.pairwise_singleton _ a
    | b :: rest' =>
      rw [keysSorted] at h
      have hab : a < b := by
        have := (Bool.and_eq_true _ _).mp h
        simpa using this.1
      have htail : List.Pairwise (· < ·) (b :: rest') := ih ((Bool.and_eq_true _ _).mp h).2
      refine List.Pairwise.cons ?_ htail
      intro x hx
      rcases List.mem_cons.mp hx with h1 | h2
      · rw [h1]
        exact hab
      · exact lt_trans hab (List.rel_of_pairwise_cons htail h2)

theorem sortedTrie_node (isW : Bool) (cs : List (Char × Trie)) :
    sortedTrie (.node isW cs) = (keysSorted (cs.map Prod.fst) && sortedTrieChildren cs) := by
  rw [sortedTrie]

theorem sortedTrieChildren_cons (c : Char) (t : Trie) (rest : List (Char × Trie)) :
    sortedTrieChildren ((c, t) :: rest) = (sortedTrie t && sortedTrieChildren rest) := by
  rw [sortedTrieChildren]

theorem wordsBelowChildren_shape_key :
    ∀ cs (pre : List Char) w, w ∈ wordsBelowChildren cs pre →
      ∃ c s, w = pre ++ c :: s ∧ c ∈ cs.map Prod.fst := by
  apply children_ind (fun cs => ∀ pre w, w ∈ wordsBelowChildren cs pre →
    ∃ c s, w = pre ++ c :: s ∧ c ∈ cs.map Prod.fst)
  · intro pre w hw
    rw [wordsBelowChildren_nil] at hw
    exact absurd hw (List.not_mem_nil w)
  · intro c t rest _ ihrest pre w hw
    rw [wordsBelowChildren_cons] at hw
    rcases List.mem_append.mp hw with hleft | hright
    · obtain ⟨s, hs⟩ := wordsBelow_shape t (pre ++ [c]) w hleft
      exact ⟨c, s, by simp [hs], by simp⟩
    · obtain ⟨c', s, hs, hc'⟩ := ihrest pre w hright
      exact ⟨c', s, hs, List.mem_cons_of_mem _ hc'⟩

theorem wordsBelow_sorted :
    ∀ cs, keysSorted (cs.map Prod.fst) = true → sortedTrieChildren cs = true →
      ∀ pre, List.Pairwise (fun a b => lexLe a b = true) (wordsBelowChildren cs pre) := by
  have node_version : ∀ (t : Trie), sortedTrie t = true →
      (keysSorted (t.children.map Prod.fst) = true → sortedTrieChildren t.children = true →
        ∀ pre, List.Pairwise (fun a b => lexLe a b = true)
          (wordsBelowChildren t.children pre)) →
      ∀ pre, List.Pairwise (fun a b => lexLe a b = true) (wordsBelow t pre) := by
    intro t hs hch pre
    match t with
    | .node isW cs =>
      rw [sortedTrie_node, Bool.and_eq_true] at hs
      rw [Trie.children] at hch
      rw [wordsBelow_eq]
      rw [List.pairwise_append]
      refine ⟨?_, hch hs.1 hs.2 pre, ?_⟩
      · rcases isW with _ | _ <;> simp
      · intro a ha b hb
        rcases isW with _ | _
        · simp at ha
        · rw [if_pos rfl, List.mem_singleton] at ha
          subst ha
          obtain ⟨c, s, hb', _⟩ := wordsBelowChildren_shape_key cs a b hb
          rw [hb']
          exact lexLe_append a (c :: s)
  apply children_ind (fun cs => keysSorted (cs.map Prod.fst) = true →
    sortedTrieChildren cs = true →
    ∀ pre, List.Pairwise (fun a b => lexLe a b = true) (wordsBelowChildren cs pre))
  · intro _ _ pre
    rw [wordsBelowChildren_nil]
    exact List.Pairwise.nil
  · intro c t rest iht ihrest hkeys hsort pre
    rw [sortedTrieChildren_cons, Bool.and_eq_true] at hsort
    have hkeys' : List.Pairwise (· < ·) (c :: rest.map Prod.fst) := by
      apply keysSorted_pairwise
      simpa using hkeys
    have hkeysrest : keysSorted (rest.map Prod.fst) = true := by
      rw [show ((c, t) :: rest).map Prod.fst = c :: rest.map Prod.fst by simp] at hkeys
      match hrest : rest.map Prod.fst with
      | [] => rw [keysSorted]
      | c' :: l' =>
        rw [hrest] at hkeys
        rw [keysSorted] at hkeys
        exact ((Bool.and_eq_true _ _).mp hkeys).2
    rw [wordsBelowChildren_cons, List.pairwise_append]
    refine ⟨?_, ihrest hkeysrest hsort.2 pre, ?_⟩
    · apply node_version t hsort.1
      intro h1 h2 pre'
      exact iht h1 h2 pre'
    · intro a ha b hb
      obtain ⟨s, hs⟩ := wordsBelow_shape t (pre ++ [c]) a ha
      obtain ⟨c', s', hb', hc'⟩ := wordsBelowChildren_shape_key rest pre b hb
      have hlt : c < c' := List.rel_of_pairwise_cons hkeys' hc'
      rw [hs, hb', show (pre ++ [c]) ++ s = pre ++ c :: s by simp]
      exact lexLe_append_lt c c' hlt pre s s'

/-! ## Predicate propagation along `findNode` -/

theorem alistLookup_mem {α : Type} :
    ∀ (cs : List (Char × α)) (c : Char) (v : α), alistLookup cs c = some v → (c, v) ∈ cs := by
  intro cs
  induction cs with
  | nil =>
    intro c v h
    rw [alistLookup] at h
    exact absurd h (by simp)
  | cons hd rest ih =>
    intro c v h
    match hd with
    | (c', v') =>
      rw [alistLookup] at h
      by_cases hc : c' = c
      · rw [if_pos hc] at h
        subst hc
        rw [Option.some_inj] at h
        subst h
        exact List.mem_cons_self _ _
      · rw [if_neg hc] at h
        exact List.mem_cons_of_mem _ (ih c v h)

theorem sortedTrieChildren_mem :
    ∀ cs (c : Char) (t : Trie), sortedTrieChildren cs = true → (c, t) ∈ cs →
      sortedTrie t = true := by
  intro cs
  induction cs with
  | nil =>
    intro c t _ hm
    exact absurd hm (List.not_mem_nil _)
  | cons hd rest ih =>
    intro c t hs hm
    match hd with
    | (c', t') =>
      rw [sortedTrieChildren_cons, Bool.and_eq_true] at hs
      rcases List.mem_cons.mp hm with h1 | h2
      · have hp : t = t' := Prod.ext_iff.mp h1 |>.2
        rw [hp]
        exact hs.1
      · exact ih c t hs.2 h2

theorem findNode_sorted :
    ∀ (p : List Char) (t u : Trie), sortedTrie t = true → findNode t p = some u →
      sortedTrie u = true := by
  intro p
  induction p with
  | nil =>
    intro t u hs hf
    rw [findNode, Option.some_inj] at hf
    rwa [hf] at hs
  | cons c rest ih =>
    intro t u hs hf
    match t with
    | .node isW cs =>
      rw [findNode, Trie.children] at hf
      match hlook : alistLookup cs c with
      | none =>
        rw [hlook] at hf
        exact absurd hf (by simp)
      | some child =>
        rw [hlook] at hf
        change findNode child rest = some u at hf
        have hmem := alistLookup_mem cs c child hlook
        have hchild : sortedTrie child = true := by
          rw [sortedTrie_node, Bool.and_eq_true] at hs
          exact sortedTrieChildren_mem cs c child hs.2 hmem
        exact ih child u hchild hf

/-! ## Case-insensitive distinctness of the enumeration under well-formedness -/

theorem trieWF_node (isW : Bool) (cs : List (Char × Trie)) :
    trieWF (.node isW cs) = (keysDistinct (cs.map Prod.fst) && trieWFChildren cs) := by
  rw [trieWF]

theorem trieWFChildren_cons (c : Char) (t : Trie) (rest : List (Char × Trie)) :
    trieWFChildren ((c, t) :: rest) = (trieWF t && trieWFChildren rest) := by
  rw [trieWFChildren]

theorem lowerTrie_node (isW : Bool) (cs : List (Char × Trie)) :
    lowerTrie (.node isW cs) = lowerChildren cs := by
  rw [lowerTrie]

theorem lowerChildren_cons (c : Char) (t : Trie) (rest : List (Char × Trie)) :
    lowerChildren ((c, t) :: rest) =
      (decide (Char.toLower c = c) && lowerTrie t && lowerChildren rest) := by
  rw [lowerChildren]

theorem keysDistinct_cons (c : Char) (l : List Char) :
    keysDistinct (c :: l) = (decide (c ∉ l) && keysDistinct l) := by
  rw [keysDistinct]

theorem wordsBelowChildren_lower_shape :
    ∀ cs, lowerChildren cs = true → ∀ (pre : List Char) w, w ∈ wordsBelowChildren cs pre →
      ∃ c s, w = pre ++ c :: s ∧ lower w = lower pre ++ c :: s ∧ c ∈ cs.map Prod.fst := by
  apply children_ind (fun cs => lowerChildren cs = true →
    ∀ pre w, w ∈ wordsBelowChildren cs pre →
      ∃ c s, w = pre ++ c :: s ∧ lower w = lower pre ++ c :: s ∧ c ∈ cs.map Prod.fst)
  · intro _ pre w hw
    rw [wordsBelowChildren_nil] at hw
    exact absurd hw (List.not_mem_nil w)
  · intro c t rest iht ihrest hlow pre w hw
    rw [lowerChildren_cons] at hlow
    have hc : Char.toLower c = c := by
      have := (Bool.and_eq_true _ _).mp hlow
      have := (Bool.and_eq_true _ _).mp this.1
      simpa using this.1
    have hlowt : lowerTrie t = true := by
      have := (Bool.and_eq_true _ _).mp hlow
      exact ((Bool.and_eq_true _ _).mp this.1).2
    have hlowrest : lowerChildren rest = true := ((Bool.and_eq_true _ _).mp hlow).2
    have hlowpre : lower (pre ++ [c]) = lower pre ++ [c] := by
      unfold lower
      rw [List.map_append]
      simp [hc]
    rw [wordsBelowChildren_cons] at hw
    rcases List.mem_append.mp hw with hleft | hright
    · rw [wordsBelow_node] at hleft
      rcases List.mem_append.mp hleft with hself | hbelow
      · have hw' : w = pre ++ [c] := by
          rcases t.isWord with _ | _ <;> simp_all
        refine ⟨c, [], hw', ?_, by simp⟩
        rw [hw', hlowpre]
      · have hlowch : lowerChildren t.children = true := by
          match t with
          | .node isW' cs' =>
            rw [lowerTrie_node] at hlowt
            rw [Trie.children]
            exact hlowt
        obtain ⟨c'', s'', hw', hlw', _⟩ := iht hlowch (pre ++ [c]) w hbelow
        refine ⟨c, c'' :: s'', by simp [hw'], ?_, by simp⟩
        rw [hlw', hlowpre]
        simp
    · obtain ⟨c', s', hw', hlw', hk⟩ := ihrest hlowrest pre w hright
      exact ⟨c', s', hw', hlw', List.mem_cons_of_mem _ hk⟩

theorem wordsBelow_lower_distinct :
    ∀ cs, keysDistinct (cs.map Prod.fst) = true → trieWFChildren cs = true →
      lowerChildren cs = true →
      ∀ pre, List.Pairwise (fun a b => lower a ≠ lower b) (wordsBelowChildren cs pre) := by
  have node_version : ∀ (t : Trie), trieWF t = true → lowerTrie t = true →
      (keysDistinct (t.children.map Prod.fst) = true → trieWFChildren t.children = true →
        lowerChildren t.children = true →
        ∀ pre, List.Pairwise (fun a b => lower a ≠ lower b)
          (wordsBelowChildren t.children pre)) →
      ∀ pre, List.Pairwise (fun a b => lower a ≠ lower b) (wordsBelow t pre) := by
    intro t hwf hlow hch pre
    match t with
    | .node isW cs =>
      rw [trieWF_node, Bool.and_eq_true] at hwf
      rw [lowerTrie_node] at hlow
      rw [Trie.children] at hch
      rw [wordsBelow_eq, List.pairwise_append]
      refine ⟨?_, hch hwf.1 hwf.2 hlow pre, ?_⟩
      · rcases isW with _ | _ <;> simp
      · intro a ha b hb
        rcases isW with _ | _
        · simp at ha
        · rw [if_pos rfl, List.mem_singleton] at ha
          subst ha
          obtain ⟨c, s, _, hlw, _⟩ := wordsBelowChildren_lower_shape cs hlow a b hb
          intro heq
          have hlen : (lower a).length = (lower b).length := by rw [heq]
          rw [hlw] at hlen
          simp [lower] at hlen
  apply children_ind (fun cs => keysDistinct (cs.map Prod.fst) = true →
    trieWFChildren cs = true → lowerChildren cs = true →
    ∀ pre, List.Pairwise (fun a b => lower a ≠ lower b) (wordsBelowChildren cs pre))
  · intro _ _ _ pre
    rw [wordsBelowChildren_nil]
    exact List.Pairwise.nil
  · intro c t rest iht ihrest hkeys hwf hlow pre
    have hkeys' : keysDistinct (c :: rest.map Prod.fst) = true := by simpa using hkeys
    rw [keysDistinct_cons, Bool.and_eq_true] at hkeys'
    have hcnot : c ∉ rest.map Prod.fst := by simpa using hkeys'.1
    rw [trieWFChildren_cons, Bool.and_eq_true] at hwf
    rw [lowerChildren_cons] at hlow
    have hc : Char.toLower c = c := by
      have := (Bool.and_eq_true _ _).mp hlow
      have := (Bool.and_eq_true _ _).mp this.1
      simpa using this.1
    have hlowt : lowerTrie t = true := by
      have := (Bool.and_eq_true _ _).mp hlow
      exact ((Bool.and_eq_true _ _).mp this.1).2
    have hlowrest : lowerChildren rest = true := ((Bool.and_eq_true _ _).mp hlow).2
    have hlowch : lowerChildren t.children = true := by
      match t with
      | .node isW' cs' =>
        rw [lowerTrie_node] at hlowt
        rw [Trie.children]
        exact hlowt
    have hlowpre : lower (pre ++ [c]) = lower pre ++ [c] := by
      unfold lower
      rw [List.map_append]
      simp [hc]
    rw [wordsBelowChildren_cons, List.pairwise_append]
    refine ⟨?_, ihrest hkeys'.2 hwf.2 hlowrest pre, ?_⟩
    · apply node_version t hwf.1 hlowt
      intro h1 h2 h3 pre'
      exact iht h1 h2 h3 pre'
    · intro a ha b hb
      obtain ⟨c', s', hb', hlwb, hk'⟩ := wordsBelowChildren_lower_shape rest hlowrest pre b hb
      have hcc' : c ≠ c' := fun he => hcnot (he ▸ hk')
      rw [wordsBelow_node] at ha
      have hla : ∃ s, lower a = lower pre ++ c :: s := by
        rcases List.mem_append.mp ha with hself | hbelow
        · have ha' : a = pre ++ [c] := by
            rcases t.isWord with _ | _ <;> simp_all
          exact ⟨[], by rw [ha', hlowpre]⟩
        · obtain ⟨c'', s'', _, hlw'', _⟩ :=
            wordsBelowChildren_lower_shape t.children hlowch (pre ++ [c]) a hbelow
          refine ⟨c'' :: s'', ?_⟩
          rw [hlw'', hlowpre]
          simp
      obtain ⟨s, hla'⟩ := hla
      intro heq
      rw [hla', hlwb] at heq
      have := List.append_cancel_left heq
      rw [List.cons_eq_cons] at this
      exact hcc' this.1

theorem trieWFChildren_mem :
    ∀ cs (c : Char) (t : Trie), trieWFChildren cs = true → (c, t) ∈ cs → trieWF t = true := by
  intro cs
  induction cs with
  | nil =>
    intro c t _ hm
    exact absurd hm (List.not_mem_nil _)
  | cons hd rest ih =>
    intro c t hs hm
    match hd with
    | (c', t') =>
      rw [trieWFChildren_cons, Bool.and_eq_true] at hs
      rcases List.mem_cons.mp hm with h1 | h2
      · have hp : t = t' := Prod.ext_iff.mp h1 |>.2
        rw [hp]
        exact hs.1
      · exact ih c t hs.2 h2

theorem lowerChildren_mem :
    ∀ cs (c : Char) (t : Trie), lowerChildren cs = true → (c, t) ∈ cs →
      lowerTrie t = true := by
  intro cs
  induction cs with
  | nil =>
    intro c t _ hm
    exact absurd hm (List.not_mem_nil _)
  | cons hd rest ih =>
    intro c t hs hm
    match hd with
    | (c', t') =>
      rw [lowerChildren_cons] at hs
      rcases List.mem_cons.mp hm with h1 | h2
      · have hp : t = t' := Prod.ext_iff.mp h1 |>.2
        rw [hp]
        have := (Bool.and_eq_true _ _).mp hs
        exact ((Bool.and_eq_true _ _).mp this.1).2
      · exact ih c t ((Bool.and_eq_true _ _).mp hs).2 h2

theorem findNode_wf :
    ∀ (p : List Char) (t u : Trie), trieWF t = true → findNode t p = some u →
      trieWF u = true := by
  intro p
  induction p with
  | nil =>
    intro t u hs hf
    rw [findNode, Option.some_inj] at hf
    rwa [hf] at hs
  | cons c rest ih =>
    intro t u hs hf
    match t with
    | .node isW cs =>
      rw [findNode, Trie.children] at hf
      match hlook : alistLookup cs c with
      | none =>
        rw [hlook] at hf
        exact absurd hf (by simp)
      | some child =>
        rw [hlook] at hf
        change findNode child rest = some u at hf
        have hmem := alistLookup_mem cs c child hlook
        have hchild : trieWF child = true := by
          rw [trieWF_node, Bool.and_eq_true] at hs
          exact trieWFChildren_mem cs c child hs.2 hmem
        exact ih child u hchild hf

theorem findNode_lowerTrie :
    ∀ (p : List Char) (t u : Trie), lowerTrie t = true → findNode t p = some u →
      lowerTrie u = true := by
  intro p
  induction p with
  | nil =>
    intro t u hs hf
    rw [findNode, Option.some_inj] at hf
    rwa [hf] at hs
  | cons c rest ih =>
    intro t u hs hf
    match t with
    | .node isW cs =>
      rw [findNode, Trie.children] at hf
      match hlook : alistLookup cs c with
      | none =>
        rw [hlook] at hf
        exact absurd hf (by simp)
      | some child =>
        rw [hlook] at hf
        change findNode child rest = some u at hf
        have hmem := alistLookup_mem cs c child hlook
        have hchild : lowerTrie child = true := by
          rw [lowerTrie_node] at hs
          exact lowerChildren_mem cs c child hs hmem
        exact ih child u hchild hf

theorem search_lower_pairwise (t : Trie) (pre : List Char) (limit : Nat)
    (hwf : trieWF t = true) (hlow : lowerTrie t = true) :
    List.Pairwise (fun a b => lower a ≠ lower b) (t.search pre limit) := by
  by_cases hpre : pre = []
  · unfold Trie.search
    rw [if_pos hpre]
    exact List.Pairwise.nil
  · match hfind : findNode t (lower pre) with
    | none =>
      rw [search_eq_nil t pre limit hfind]
      exact List.Pairwise.nil
    | some u =>
      rw [search_eq_take t pre limit u hpre hfind]
      apply List.Pairwise.sublist (List.take_sublist _ _)
      have hwfu := findNode_wf (lower pre) t u hwf hfind
      have hlowu := findNode_lowerTrie (lower pre) t u hlow hfind
      match u with
      | .node isW cs =>
        rw [wordsBelow_eq, List.pairwise_append]
        rw [trieWF_node, Bool.and_eq_true] at hwfu
        rw [lowerTrie_node] at hlowu
        refine ⟨?_, wordsBelow_lower_distinct cs hwfu.1 hwfu.2 hlowu (lower pre), ?_⟩
        · rcases isW with _ | _ <;> simp
        · intro a ha b hb
          rcases isW with _ | _
          · simp at ha
          · rw [if_pos rfl, List.mem_singleton] at ha
            subst ha
            obtain ⟨c, s, _, hlw, _⟩ := wordsBelowChildren_lower_shape cs hlowu (lower pre) b hb
            intro heq
            have hlen : (lower (lower pre)).length = (lower b).length := by rw [heq]
            rw [hlw] at hlen
            simp [lower] at hlen

/-! ## The merge loop of `getSuggestions` -/

theorem mergeFuzzy_spec :
    ∀ (fuzzy : List (List Char × Nat)) (ex : List (List Char)) (pl : List Char) (limit : Nat),
      List.Pairwise (fun a b => lower a ≠ lower b) ex →
      ∃ added, mergeFuzzy fuzzy ex (ex.map lower) pl limit = ex ++ added ∧
        (∀ w ∈ added, lower w ≠ pl) ∧
        List.Pairwise (fun a b => lower a ≠ lower b) (ex ++ added) := by
  intro fuzzy
  induction fuzzy with
  | nil =>
    intro ex pl limit hpw
    refine ⟨[], ?_, by simp, by simpa⟩
    rw [mergeFuzzy]
    simp
  | cons hd rest ih =>
    intro ex pl limit hpw
    match hd with
    | (word, d) =>
      rw [mergeFuzzy]
      by_cases hcond : lower word ∉ ex.map lower ∧ lower word ≠ pl
      · rw [if_pos hcond]
        have hpw1 : List.Pairwise (fun a b => lower a ≠ lower b) (ex ++ [word]) := by
          rw [List.pairwise_append]
          refine ⟨hpw, List.pairwise_singleton _ _, ?_⟩
          intro a ha b hb
          rw [List.mem_singleton] at hb
          subst hb
          intro heq
          exact hcond.1 (heq ▸ List.mem_map_of_mem lower ha)
        by_cases hstop : limit ≤ (ex ++ [word]).length
        · rw [if_pos hstop]
          refine ⟨[word], rfl, ?_, hpw1⟩
          intro w hw
          rw [List.mem_singleton] at hw
          subst hw
          exact hcond.2
        · rw [if_neg hstop]
          have hseen : ex.map lower ++ [lower word] = (ex ++ [word]).map lower := by simp
          rw [hseen]
          obtain ⟨added', heq', hfresh', hpw'⟩ := ih (ex ++ [word]) pl limit hpw1
          have heq2 : mergeFuzzy rest (ex ++ [word]) ((ex ++ [word]).map lower) pl limit =
              ex ++ (word :: added') := by
            rw [heq']
            simp
          have hpw2 : List.Pairwise (fun a b => lower a ≠ lower b) (ex ++ (word :: added')) := by
            have hassoc : ex ++ word :: added' = (ex ++ [word]) ++ added' := by simp
            rw [hassoc]
            exact hpw'
          refine ⟨word :: added', heq2, ?_, hpw2⟩
          intro w hw
          rcases List.mem_cons.mp hw with h1 | h2
          · subst h1
            exact hcond.2
          · exact hfresh' w h2
      · rw [if_neg hcond]
        exact ih ex pl limit hpw

theorem getSuggestions_spec (t : Trie) (limit fuzzyEdits : Nat) (pre : List Char)
    (hwf : trieWF t = true) (hlow : lowerTrie t = true) :
    ∃ added, getSuggestions t limit fuzzyEdits pre =
        (t.search pre (limit * 2) ++ added).take limit ∧
      (∀ w ∈ added, lower w ≠ lower pre) ∧
      List.Pairwise (fun a b => lower a ≠ lower b) (getSuggestions t limit fuzzyEdits pre) := by
  have hpw := search_lower_pairwise t pre (limit * 2) hwf hlow
  have hg : getSuggestions t limit fuzzyEdits pre =
      (if (t.search pre (limit * 2)).length < limit then
        mergeFuzzy (t.searchFuzzy pre fuzzyEdits (limit * 3)) (t.search pre (limit * 2))
          ((t.search pre (limit * 2)).map lower) (lower pre) limit
      else t.search pre (limit * 2)).take limit := rfl
  by_cases hfull : (t.search pre (limit * 2)).length < limit
  · rw [if_pos hfull] at hg
    obtain ⟨added, heq, hfresh, hpw'⟩ := mergeFuzzy_spec
      (t.searchFuzzy pre fuzzyEdits (limit * 3)) (t.search pre (limit * 2)) (lower pre)
      limit hpw
    rw [heq] at hg
    refine ⟨added, hg, hfresh, ?_⟩
    rw [hg]
    exact List.Pairwise.sublist (List.take_sublist _ _) hpw'
  · rw [if_neg hfull] at hg
    have hg2 : getSuggestions t limit fuzzyEdits pre =
        (t.search pre (limit * 2) ++ []).take limit := by
      rw [hg]
      simp
    refine ⟨[], hg2, by simp, ?_⟩
    rw [hg]
    exact List.Pairwise.sublist (List.take_sublist _ _) hpw

/-! ## The main.js removal variant maintains the no-dead-node invariant -/

theorem pruned_node (cs : List (Char × Trie2)) (isW : Bool) (fr : Nat)
    (wd : Option (List Char)) : pruned (.node cs isW fr wd) = prunedChildren cs := by
  rw [pruned]

theorem prunedChildren_cons (c : Char) (t : Trie2) (rest : List (Char × Trie2)) :
    prunedChildren ((c, t) :: rest) =
      ((!t.children.isEmpty || t.isWord) && pruned t && prunedChildren rest) := by
  rw [prunedChildren]

theorem prunedChildren_nil : prunedChildren [] = true := by
  rw [prunedChildren]

theorem pruned_empty : pruned Trie2.empty = true := by
  rw [Trie2.empty, pruned_node, prunedChildren_nil]

theorem prunedChildren_mem :
    ∀ (cs : List (Char × Trie2)) (c : Char) (t : Trie2), prunedChildren cs = true →
      (c, t) ∈ cs →
      pruned t = true ∧ (!t.children.isEmpty || t.isWord) = true := by
  intro cs
  induction cs with
  | nil =>
    intro c t _ hm
    exact absurd hm (List.not_mem_nil _)
  | cons hd rest ih =>
    intro c t hp hm
    match hd with
    | (c', t') =>
      rw [prunedChildren_cons, Bool.and_eq_true, Bool.and_eq_true] at hp
      rcases List.mem_cons.mp hm with h1 | h2
      · have heq : t = t' := Prod.ext_iff.mp h1 |>.2
        rw [heq]
        exact ⟨hp.1.2, hp.1.1⟩
      · exact ih c t hp.2 h2

theorem alistSet_ne_nil {α : Type} (cs : List (Char × α)) (c : Char) (v : α) :
    alistSet cs c v ≠ [] := by
  match cs with
  | [] =>
    rw [alistSet]
    simp
  | (c', v') :: rest =>
    rw [alistSet]
    by_cases hc : c' = c
    · rw [if_pos hc]
      simp
    · rw [if_neg hc]
      simp

theorem prunedChildren_set :
    ∀ (cs : List (Char × Trie2)) (c : Char) (u : Trie2), prunedChildren cs = true →
      pruned u = true → (!u.children.isEmpty || u.isWord) = true →
      prunedChildren (alistSet cs c u) = true := by
  intro cs
  induction cs with
  | nil =>
    intro c u _ hu ha
    rw [alistSet, prunedChildren_cons, prunedChildren_nil]
    rw [ha, hu]
    rfl
  | cons hd rest ih =>
    intro c u hp hu ha
    match hd with
    | (c', t') =>
      rw [prunedChildren_cons, Bool.and_eq_true, Bool.and_eq_true] at hp
      rw [alistSet]
      by_cases hc : c' = c
      · rw [if_pos hc, prunedChildren_cons]
        rw [ha, hu, hp.2]
        rfl
      · rw [if_neg hc, prunedChildren_cons]
        rw [hp.1.1, hp.1.2, ih c u hp.2 hu ha]
        rfl

theorem prunedChildren_delete :
    ∀ (cs : List (Char × Trie2)) (c : Char), prunedChildren cs = true →
      prunedChildren (alistDelete cs c) = true := by
  intro cs
  induction cs with
  | nil =>
    intro c _
    rw [alistDelete, prunedChildren_nil]
  | cons hd rest ih =>
    intro c hp
    match hd with
    | (c', t') =>
      rw [prunedChildren_cons, Bool.and_eq_true, Bool.and_eq_true] at hp
      rw [alistDelete]
      by_cases hc : c' = c
      · rw [if_pos hc]
        exact hp.2
      · rw [if_neg hc, prunedChildren_cons]
        rw [hp.1.1, hp.1.2, ih c hp.2]
        rfl

theorem insert2Aux_pruned :
    ∀ (p : List Char) (t : Trie2) (full : List Char) (f : Nat), pruned t = true →
      pruned (insert2Aux t p full f) = true ∧
        (!(insert2Aux t p full f).children.isEmpty ||
          (insert2Aux t p full f).isWord) = true := by
  intro p
  induction p with
  | nil =>
    intro t full f hp
    match t with
    | .node cs isW fr wd =>
      constructor
      · rw [insert2Aux, pruned_node]
        rw [pruned_node] at hp
        exact hp
      · rw [insert2Aux, Trie2.isWord]
        simp
  | cons c rest ih =>
    intro t full f hp
    match t with
    | .node cs isW fr wd =>
      rw [pruned_node] at hp
      have hchild : pruned (match alistLookup cs c with
          | some u => u
          | none => Trie2.empty) = true := by
        match hlook : alistLookup cs c with
        | some u =>
          exact (prunedChildren_mem cs c u hp (alistLookup_mem cs c u hlook)).1
        | none => exact pruned_empty
      obtain ⟨hrec, harec⟩ := ih _ full f hchild
      constructor
      · rw [insert2Aux, pruned_node]
        exact prunedChildren_set cs c _ hp hrec harec
      · rw [insert2Aux, Trie2.children]
        have : alistSet cs c (insert2Aux (match alistLookup cs c with
            | some u => u
            | none => Trie2.empty) rest full f) ≠ [] := alistSet_ne_nil _ _ _
        simp [this]

theorem insert2_pruned (t : Trie2) (w : List Char) (f : Nat) (hp : pruned t = true) :
    pruned (Trie2.insert t w f) = true := by
  unfold Trie2.insert
  by_cases hguard : w = [] ∨ w.length < 2
  · rw [if_pos hguard]
    exact hp
  · rw [if_neg hguard]
    exact (insert2Aux_pruned (lower w) t (lower w) f hp).1

theorem removeHelper_alive :
    ∀ (p : List Char) (t : Trie2), (!t.children.isEmpty || t.isWord) = true →
      (removeHelper t p).2 = false →
      (!(removeHelper t p).1.children.isEmpty || (removeHelper t p).1.isWord) = true := by
  intro p t halive hfalse
  match p, t with
  | [], .node cs isW fr wd =>
    rw [removeHelper] at hfalse ⊢
    rcases isW with _ | _
    · rw [if_neg (by simp)] at hfalse ⊢
      have hcs : cs.isEmpty = false := hfalse
      show (!(Trie2.node cs false fr wd).children.isEmpty ||
        (Trie2.node cs false fr wd).isWord) = true
      rw [Trie2.children]
      simp [hcs]
    · rw [if_pos rfl] at hfalse ⊢
      have hcs : cs.isEmpty = false := hfalse
      show (!(Trie2.node cs false fr none).children.isEmpty ||
        (Trie2.node cs false fr none).isWord) = true
      rw [Trie2.children]
      simp [hcs]
  | c :: rest, .node cs isW fr wd =>
    rw [removeHelper] at hfalse ⊢
    match hlook : alistLookup cs c with
    | none =>
      simp only [hlook] at hfalse ⊢
      exact halive
    | some child =>
      simp only [hlook] at hfalse ⊢
      by_cases hr : (removeHelper child rest).2
      · rw [if_pos hr] at hfalse ⊢
        rw [Trie2.children, Trie2.isWord]
        rw [Bool.and_eq_false_iff] at hfalse
        rcases hfalse with h1 | h2
        · rw [h1]
          rfl
        · have hisw : isW = true := by
            rcases isW with _ | _
            · simp at h2
            · rfl
          rw [hisw]
          simp
      · rw [if_neg hr] at hfalse ⊢
        rw [Trie2.children]
        have hne : alistSet cs c (removeHelper child rest).1 ≠ [] := alistSet_ne_nil _ _ _
        simp [hne]

theorem removeHelper_pruned :
    ∀ (p : List Char) (t : Trie2), pruned t = true →
      pruned (removeHelper t p).1 = true := by
  intro p
  induction p with
  | nil =>
    intro t hp
    match t with
    | .node cs isW fr wd =>
      rw [pruned_node] at hp
      rw [removeHelper]
      rcases isW with _ | _
      · rw [if_neg (by simp), pruned_node]
        exact hp
      · rw [if_pos rfl, pruned_node]
        exact hp
  | cons c rest ih =>
    intro t hp
    match t with
    | .node cs isW fr wd =>
      rw [pruned_node] at hp
      rw [removeHelper]
      match hlook : alistLookup cs c with
      | none =>
        simp only [hlook]
        rw [pruned_node]
        exact hp
      | some child =>
        simp only [hlook]
        have hchild := prunedChildren_mem cs c child hp (alistLookup_mem cs c child hlook)
        by_cases hr : (removeHelper child rest).2
        · rw [if_pos hr]
          rw [pruned_node]
          exact prunedChildren_delete cs c hp
        · rw [if_neg hr]
          rw [pruned_node]
          exact prunedChildren_set cs c _ hp (ih child hchild.1)
            (removeHelper_alive rest child hchild.2 (by simpa using hr))

theorem remove2_pruned (t : Trie2) (w : List Char) (hp : pruned t = true) :
    pruned (Trie2.remove t w) = true := by
  unfold Trie2.remove
  exact removeHelper_pruned (lower w) t hp

theorem applyOps_pruned : ∀ (ops : List Op2) (t : Trie2), pruned t = true →
    pruned (applyOps ops t) = true := by
  intro ops
  induction ops with
  | nil =>
    intro t hp
    rw [applyOps]
    exact hp
  | cons op rest ih =>
    intro t hp
    match op with
    | .ins w f =>
      rw [applyOps]
      exact ih _ (insert2_pruned t w f hp)
    | .rem w =>
      rw [applyOps]
      exact ih _ (remove2_pruned t w hp)

/-! ## Insert-then-remove from the empty main.js trie restores the empty trie -/

theorem chain_remove_flag :
    ∀ (p : List Char) (full : List Char) (f : Nat),
      (removeHelper (insert2Aux Trie2.empty p full f) p).2 = true := by
  intro p
  induction p with
  | nil =>
    intro full f
    rw [Trie2.empty, insert2Aux, removeHelper, if_pos rfl]
    rfl
  | cons c rest ih =>
    intro full f
    rw [Trie2.empty, insert2Aux]
    show (removeHelper (Trie2.node (alistSet [] c
      (insert2Aux (match alistLookup ([] : List (Char × Trie2)) c with
        | some u => u
        | none => Trie2.empty) rest full f)) false 0 none) (c :: rest)).2 = true
    rw [show (match alistLookup ([] : List (Char × Trie2)) c with
        | some u => u
        | none => Trie2.empty) = Trie2.empty from rfl]
    rw [show alistSet ([] : List (Char × Trie2)) c (insert2Aux Trie2.empty rest full f) =
      [(c, insert2Aux Trie2.empty rest full f)] from rfl]
    rw [removeHelper]
    rw [show alistLookup [(c, insert2Aux Trie2.empty rest full f)] c =
      some (insert2Aux Trie2.empty rest full f) from by rw [alistLookup, if_pos rfl]]
    simp only [ih full f, if_pos]
    rw [show alistDelete [(c, insert2Aux Trie2.empty rest full f)] c =
      ([] : List (Char × Trie2)) from by rw [alistDelete, if_pos rfl]]
    rfl

theorem insert2_remove2_empty (w : List Char) (f : Nat) :
    Trie2.remove (Trie2.insert Trie2.empty w f) w = Trie2.empty := by
  unfold Trie2.insert
  by_cases hguard : w = [] ∨ w.length < 2
  · rw [if_pos hguard]
    unfold Trie2.remove
    match hlw : lower w with
    | [] =>
      rw [Trie2.empty, removeHelper, if_neg (by simp)]
    | c :: rest =>
      rw [Trie2.empty, removeHelper]
      rw [show alistLookup ([] : List (Char × Trie2)) c = none from rfl]
  · rw [if_neg hguard]
    unfold Trie2.remove
    have hne : lower w ≠ [] := by
      have hw : w ≠ [] := by
        intro hnil
        exact hguard (Or.inl hnil)
      simpa [lower] using hw
    match hlw : lower w with
    | [] => exact absurd hlw hne
    | c :: rest =>
      rw [Trie2.empty, insert2Aux]
      show (removeHelper (Trie2.node (alistSet [] c
        (insert2Aux (match alistLookup ([] : List (Char × Trie2)) c with
          | some u => u
          | none => Trie2.empty) rest (c :: rest) f)) false 0 none) (c :: rest)).1 =
        Trie2.empty
      rw [show (match alistLookup ([] : List (Char × Trie2)) c with
          | some u => u
          | none => Trie2.empty) = Trie2.empty from rfl]
      rw [show alistSet ([] : List (Char × Trie2)) c
        (insert2Aux Trie2.empty rest (c :: rest) f) =
        [(c, insert2Aux Trie2.empty rest (c :: rest) f)] from rfl]
      rw [removeHelper]
      rw [show alistLookup [(c, insert2Aux Trie2.empty rest (c :: rest) f)] c =
        some (insert2Aux Trie2.empty rest (c :: rest) f) from by rw [alistLookup, if_pos rfl]]
      simp only [chain_remove_flag rest (c :: rest) f, if_pos]
      rw [show alistDelete [(c, insert2Aux Trie2.empty rest (c :: rest) f)] c =
        ([] : List (Char × Trie2)) from by rw [alistDelete, if_pos rfl]]
      rfl

theorem search2_empty (p : List Char) (limit : Nat) (excl : Option (List Char)) :
    Trie2.search Trie2.empty p limit excl = [] := by
  unfold Trie2.search
  by_cases hp : p = []
  · rw [if_pos hp]
  · rw [if_neg hp]
    have hne : lower p ≠ [] := by simpa [lower] using hp
    match hlw : lower p with
    | [] => exact absurd hlw hne
    | c :: rest =>
      rw [findNode2]
      rw [show alistLookup (Trie2.children Trie2.empty) c = none from rfl]

theorem wordsBelow_sorted_node (u : Trie) (hs : sortedTrie u = true) (pre : List Char) :
    List.Pairwise (fun a b => lexLe a b = true) (wordsBelow u pre) := by
  match u with
  | .node isW cs =>
    rw [sortedTrie_node, Bool.and_eq_true] at hs
    rw [wordsBelow_eq, List.pairwise_append]
    refine ⟨?_, wordsBelow_sorted cs hs.1 hs.2 pre, ?_⟩
    · rcases isW with _ | _ <;> simp
    · intro a ha b hb
      rcases isW with _ | _
      · simp at ha
      · rw [if_pos rfl, List.mem_singleton] at ha
        obtain ⟨c, s, hb', _⟩ := wordsBelowChildren_shape_key cs pre b hb
        rw [ha, hb']
        exact lexLe_append pre (c :: s)

/-! ## Concrete tries used by witnesses and counterexamples -/

/-- The trie holding "hello". -/
def exHello : Trie := Trie.empty.insert ['h', 'e', 'l', 'l', 'o']

/-- The trie holding "cat", "cot", "cut" (inserted in that order). -/
def exCat : Trie :=
  ((Trie.empty.insert ['c', 'a', 't']).insert ['c', 'o', 't']).insert ['c', 'u', 't']

/-- The trie holding "cot" and "cut" only. -/
def exCot : Trie := (Trie.empty.insert ['c', 'o', 't']).insert ['c', 'u', 't']

/-- The trie holding "ez", "ey", "ex", "ew", "ev", inserted in reverse
alphabetical order so the depth-first traversal visits them in that order. -/
def exEz : Trie :=
  ((((Trie.empty.insert ['e', 'z']).insert ['e', 'y']).insert ['e', 'x']).insert
    ['e', 'w']).insert ['e', 'v']

/-- The trie holding "app" only. -/
def exApp : Trie := Trie.empty.insert ['a', 'p', 'p']

/-- The trie holding "apple", "apply", "app" (inserted in that order). -/
def exApple : Trie :=
  ((Trie.empty.insert ['a', 'p', 'p', 'l', 'e']).insert ['a', 'p', 'p', 'l', 'y']).insert
    ['a', 'p', 'p']

/-- The trie built by inserting "ab" and then "aa", so the children of the
"a" node sit in the non-alphabetical order b, a. -/
def exAB : Trie := (Trie.empty.insert ['a', 'b']).insert ['a', 'a']

/-! ## The claims -/

/-- C1: for every trie content, every query string Q, every budget k ≥ 0 and
every limit, each pair (word, dist) returned by `Trie.searchFuzzy(Q, k, limit)`
satisfies: word is a word stored in the trie, dist equals the
optimal-string-alignment edit distance (unit-cost insertions, deletions,
substitutions, and adjacent transpositions) between word and lowercase(Q),
and dist ≤ k. -/
theorem c1_searchFuzzy_sound (t : Trie) (q : List Char) (k limit : Nat) (w : List Char)
    (d : Nat) (h : (w, d) ∈ t.searchFuzzy q k limit) :
    w ∈ storedWords t ∧ d = osa w (lower q) ∧ d ≤ k :=
  searchFuzzy_sound t q k limit w d h

/-- Witness for C1: searching the {"hello"} trie for "helo" with budget 1
returns ("hello", 1), and the theorem yields storedness, the exact OSA
distance, and the budget bound at that input. -/
theorem c1_witness :
    (['h', 'e', 'l', 'l', 'o'], 1) ∈ exHello.searchFuzzy ['h', 'e', 'l', 'o'] 1 5 ∧
      (['h', 'e', 'l', 'l', 'o'] ∈ storedWords exHello ∧
        1 = osa ['h', 'e', 'l', 'l', 'o'] (lower ['h', 'e', 'l', 'o']) ∧ 1 ≤ 1) :=
  ⟨by decide, c1_searchFuzzy_sound exHello ['h', 'e', 'l', 'o'] 1 5 ['h', 'e', 'l', 'l', 'o'] 1
    (by decide)⟩

/-- Counterexample for C2 as stated: in the trie {"cot", "cut"} with query
"cat", budget 1 and limit 1, the compaction threshold is never reached (2
candidates ≤ 4·limit), yet the stored word "cut" lies within budget and is
missing from `searchFuzzy`'s output, because the final result is sliced to
`limit` entries. -/
theorem c2_counterexample :
    (qualPairs exCot ['c', 'a', 't'] 1).length ≤ 1 * 4 ∧
      ['c', 'u', 't'] ∈ storedWords exCot ∧
      osa ['c', 'u', 't'] (lower ['c', 'a', 't']) ≤ 1 ∧
      (['c', 'u', 't'], osa ['c', 'u', 't'] (lower ['c', 'a', 't'])) ∉
        exCot.searchFuzzy ['c', 'a', 't'] 1 1 := by
  refine ⟨by decide, by decide, by decide, by decide⟩

/-- C2 (amended): (a) the dynamic-programming row `_fuzzyDfs` computes for a
child node is the OSA row of the child's path; (b) soundness of the pruning
bound: when the minimum of that row exceeds the budget, no extension of the
path — in particular no word in the child's subtree — is within budget, so
skipping the subtree loses nothing; (c) completeness: for every limit at
least the number of stored words within distance k of the query (which also
keeps the mid-traversal compaction from ever triggering, since
limit ≤ 4·limit), `searchFuzzy` returns every such word with its distance.
The claim as stated is amended only in (c): a limit that merely avoids
compaction does not suffice, because the final result is sliced to `limit`
entries (see the counterexample). -/
theorem c2_pruning_sound :
    (∀ (q w : List Char) (c : Char) (pc : Option Char) (pr : List Nat)
      (ppr : Option (List Nat)), RowState q w pc pr ppr →
      computeRow q c pc pr ppr = osaRow q (w ++ [c])) ∧
    (∀ (q w : List Char) (k : Nat), k < minRow (osaRow q w) → ∀ s, k < osa (w ++ s) q) ∧
    (∀ (t : Trie) (term : List Char) (k limit : Nat), term ≠ [] → t.isWord = false →
      (qualPairs t term k).length ≤ limit →
      ∀ w, w ∈ storedWords t → osa w (lower term) ≤ k →
        (w, osa w (lower term)) ∈ t.searchFuzzy term k limit) := by
  refine ⟨computeRow_state, ?_, ?_⟩
  · intro q w k hk s
    have h1 := minRow_osaRow_append q s w
    have h2 := minRow_le_osa q (w ++ s)
    omega
  · intro t term k limit hterm hroot hlen w hmem hdist
    rw [searchFuzzy_eq_spec t term k limit hterm hroot (by omega)]
    have hpair : (w, osa w (lower term)) ∈ qualPairs t term k := by
      apply List.mem_filterMap.mpr
      exact ⟨w, hmem, by rw [if_pos hdist]⟩
    have hsortlen : (List.insertionSort cmpDistWord (qualPairs t term k)).length ≤ limit := by
      rw [List.length_insertionSort]
      omega
    rw [List.take_of_length_le hsortlen]
    exact (List.perm_insertionSort cmpDistWord (qualPairs t term k)).symm.subset hpair

/-- Witness for C2: the row computed for the child "c" of the root against
query "cat" is the OSA row of "c"; with query "cat" and path "x" the row
minimum exceeds budget 0 so every extension stays over budget; and in the
{"cat","cot","cut"} trie with budget 1 and limit 5 the qualifying word "cot"
is returned with its distance. -/
theorem c2_witness :
    computeRow ['c', 'a', 't'] 'c' none (List.range (List.length ['c', 'a', 't'] + 1)) none =
      osaRow ['c', 'a', 't'] (([] : List Char) ++ ['c']) ∧
      0 < osa (['x'] ++ ['q']) ['c', 'a', 't'] ∧
      (['c', 'o', 't'], osa ['c', 'o', 't'] (lower ['c', 'a', 't'])) ∈
        exCat.searchFuzzy ['c', 'a', 't'] 1 5 :=
  ⟨c2_pruning_sound.1 ['c', 'a', 't'] [] 'c' none _ none (RowState_init ['c', 'a', 't']),
    c2_pruning_sound.2.1 ['c', 'a', 't'] ['x'] 0 (by decide) ['q'],
    c2_pruning_sound.2.2 exCat ['c', 'a', 't'] 1 5 (by decide) (by decide) (by decide)
      ['c', 'o', 't'] (by decide) (by decide)⟩

/-- Counterexample for C3 as stated: `_collect` of the current plugin visits
children in map insertion order, not alphabetical order, so after inserting
"ab" and then "aa", search("a", 10) returns ["ab", "aa"], which is not in
ascending alphabetical order. -/
theorem c3_counterexample :
    exAB.search ['a'] 10 = [['a', 'b'], ['a', 'a']] ∧
      ¬List.Pairwise (fun a b => lexLe a b = true) (exAB.search ['a'] 10) := by
  refine ⟨by decide, by decide⟩

/-- C3 (amended): for every trie content and prefix P, `search(P, limit)`
returns at most limit words, each having lowercase(P) as a prefix, with P
itself first (as list head) when it is a stored word and limit ≥ 1; the list
is in ascending alphabetical order whenever every children map of the trie
is in alphabetical key order — which the first main.js variant enforces by
sorting keys, and which holds for `part_000` whenever children happened to
be created alphabetically; in particular, after inserting
["apple", "apply", "app"], search("app", 10) = ["app", "apple", "apply"].
The claim is amended only in conditioning the alphabetical-order part on
alphabetically ordered children maps (see the counterexample). -/
theorem c3_search_shape :
    (∀ (t : Trie) (pre : List Char) (limit : Nat), (t.search pre limit).length ≤ limit) ∧
    (∀ (t : Trie) (pre : List Char) (limit : Nat) (w : List Char), w ∈ t.search pre limit →
      ∃ s, w = lower pre ++ s) ∧
    (∀ (t u : Trie) (pre : List Char) (limit : Nat), pre ≠ [] →
      findNode t (lower pre) = some u → u.isWord = true → 1 ≤ limit →
      (t.search pre limit).head? = some (lower pre)) ∧
    (∀ (t : Trie) (pre : List Char) (limit : Nat), sortedTrie t = true →
      List.Pairwise (fun a b => lexLe a b = true) (t.search pre limit)) ∧
    exApple.search ['a', 'p', 'p'] 10 =
      [['a', 'p', 'p'], ['a', 'p', 'p', 'l', 'e'], ['a', 'p', 'p', 'l', 'y']] := by
  refine ⟨?_, ?_, ?_, ?_, by decide⟩
  · intro t pre limit
    by_cases hpre : pre = []
    · unfold Trie.search
      rw [if_pos hpre]
      simp
    · match hfind : findNode t (lower pre) with
      | none =>
        rw [search_eq_nil t pre limit hfind]
        simp
      | some u =>
        rw [search_eq_take t pre limit u hpre hfind, List.length_take]
        exact min_le_left _ _
  · intro t pre limit w hw
    by_cases hpre : pre = []
    · unfold Trie.search at hw
      rw [if_pos hpre] at hw
      exact absurd hw (List.not_mem_nil w)
    · match hfind : findNode t (lower pre) with
      | none =>
        rw [search_eq_nil t pre limit hfind] at hw
        exact absurd hw (List.not_mem_nil w)
      | some u =>
        rw [search_eq_take t pre limit u hpre hfind] at hw
        exact wordsBelow_shape u (lower pre) w ((List.take_sublist _ _).subset hw)
  · intro t u pre limit hpre hfind hword hlim
    rw [search_eq_take t pre limit u hpre hfind]
    rw [wordsBelow_node u, hword, if_pos rfl, List.singleton_append]
    match limit, hlim with
    | m + 1, _ =>
      rw [List.take_succ_cons]
      rfl
  · intro t pre limit hsorted
    by_cases hpre : pre = []
    · unfold Trie.search
      rw [if_pos hpre]
      exact List.Pairwise.nil
    · match hfind : findNode t (lower pre) with
      | none =>
        rw [search_eq_nil t pre limit hfind]
        exact List.Pairwise.nil
      | some u =>
        rw [search_eq_take t pre limit u hpre hfind]
        exact List.Pairwise.sublist (List.take_sublist _ _)
          (wordsBelow_sorted_node u (findNode_sorted (lower pre) t u hsorted hfind) (lower pre))

/-- Witness for C3: each quantified part instantiated on the
["apple", "apply", "app"] trie at the prefix "app". -/
theorem c3_witness :
    (∃ s, ['a', 'p', 'p', 'l', 'e'] = lower ['a', 'p', 'p'] ++ s) ∧
      (exApple.search ['a', 'p', 'p'] 10).head? = some (lower ['a', 'p', 'p']) ∧
      List.Pairwise (fun a b => lexLe a b = true) (exApple.search ['a', 'p', 'p'] 10) := by
  refine ⟨?_, ?_, ?_⟩
  · exact c3_search_shape.2.1 exApple ['a', 'p', 'p'] 10 ['a', 'p', 'p', 'l', 'e'] (by decide)
  · rcases hfind : findNode exApple (lower ['a', 'p', 'p']) with _ | u
    · have hsome : (findNode exApple (lower ['a', 'p', 'p'])).isSome = true := by decide
      rw [hfind] at hsome
      exact absurd hsome (by decide)
    · have hw : (match findNode exApple (lower ['a', 'p', 'p']) with
          | none => false
          | some v => v.isWord) = true := by decide
      rw [hfind] at hw
      exact c3_search_shape.2.2.1 exApple u ['a', 'p', 'p'] 10 (by decide) hfind hw (by decide)
  · exact c3_search_shape.2.2.2.1 exApple ['a', 'p', 'p'] 10 (by decide)

/-- Counterexample for C4 as stated: in the trie {"ez","ey","ex","ew","ev"}
(children created in that reverse-alphabetical order) with query "ab",
budget 2 and limit 1, all five words are at distance 2; the fifth push
triggers the mid-traversal compaction, which keeps the first two buffer
entries ("ez", "ey") and permanently discards "ev", so the result is
[("ey", 2)] while the first element of the fully sorted candidate list is
("ev", 2). -/
theorem c4_counterexample :
    exEz.searchFuzzy ['a', 'b'] 2 1 = [(['e', 'y'], 2)] ∧
      (List.insertionSort cmpDistWord (qualPairs exEz ['a', 'b'] 2)).take 1 =
        [(['e', 'v'], 2)] ∧
      exEz.searchFuzzy ['a', 'b'] 2 1 ≠
        (List.insertionSort cmpDistWord (qualPairs exEz ['a', 'b'] 2)).take 1 := by
  refine ⟨by decide, by decide, by decide⟩

/-- C4 (amended): for every trie content with a non-word root, non-empty
query Q, budget k and limit such that at most 4·limit stored words lie
within OSA distance k of lowercase(Q) (so the mid-traversal compaction never
triggers), `searchFuzzy(Q, k, limit)` returns exactly the first limit
elements of the (word, distance) pairs of all qualifying stored words,
stably sorted by ascending distance with ties broken by lexicographic order
on the stored lowercase words (the model of `localeCompare`). The claim as
stated fails when compaction triggers (see the counterexample) and for the
empty query, which returns [] regardless of stored words within budget. -/
theorem c4_searchFuzzy_ranked (t : Trie) (term : List Char) (k limit : Nat)
    (hterm : term ≠ []) (hroot : t.isWord = false)
    (hlen : (qualPairs t term k).length ≤ limit * 4) :
    t.searchFuzzy term k limit =
      (List.insertionSort cmpDistWord (qualPairs t term k)).take limit :=
  searchFuzzy_eq_spec t term k limit hterm hroot hlen

/-- Witness for C4: the {"cat","cot","cut"} trie with query "cat", budget 1
and limit 5 satisfies the hypotheses, and the theorem yields the ranked
result ("cat" at distance 0, then "cot" and "cut" at distance 1 in
lexicographic order). -/
theorem c4_witness :
    (['c', 'a', 't'] : List Char) ≠ [] ∧ exCat.isWord = false ∧
      (qualPairs exCat ['c', 'a', 't'] 1).length ≤ 5 * 4 ∧
      exCat.searchFuzzy ['c', 'a', 't'] 1 5 =
        (List.insertionSort cmpDistWord (qualPairs exCat ['c', 'a', 't'] 1)).take 5 :=
  ⟨by decide, by decide, by decide,
    c4_searchFuzzy_ranked exCat ['c', 'a', 't'] 1 5 (by decide) (by decide) (by decide)⟩

/-- Counterexample for C5 as stated: `getSuggestions` never excludes the
query itself from the exact-prefix results (only the fuzzy merge filters
it), so on the trie {"app"} the suggestion list for the prefix "app"
contains "app" itself — an element case-insensitively equal (indeed
identical) to the prefix. -/
theorem c5_counterexample :
    ['a', 'p', 'p'] ∈ getSuggestions exApp 5 2 ['a', 'p', 'p'] := by decide

/-- C5 (amended): for every well-formed, lowercase-labelled trie and every
prefix, `getSuggestions` returns a limit-truncation of the exact-prefix
results followed by the fuzzy-merged additions; no fuzzy-merged addition is
case-insensitively equal to the prefix (the exact portion may contain the
stored prefix itself, see the counterexample); no two returned elements are
case-insensitively equal; and every exact-prefix match precedes every fuzzy
addition by construction. -/
theorem c5_getSuggestions_merge (t : Trie) (limit fuzzyEdits : Nat) (pre : List Char)
    (hwf : trieWF t = true) (hlow : lowerTrie t = true) :
    ∃ added, getSuggestions t limit fuzzyEdits pre =
        (t.search pre (limit * 2) ++ added).take limit ∧
      (∀ w ∈ added, lower w ≠ lower pre) ∧
      List.Pairwise (fun a b => lower a ≠ lower b) (getSuggestions t limit fuzzyEdits pre) :=
  getSuggestions_spec t limit fuzzyEdits pre hwf hlow

/-- Witness for C5: the {"cat","cot","cut"} trie is well-formed and
lowercase, and the theorem applies to the prefix "ca" with the default
settings (5 suggestions, 2 fuzzy edits). -/
theorem c5_witness :
    trieWF exCat = true ∧ lowerTrie exCat = true ∧
      ∃ added, getSuggestions exCat 5 2 ['c', 'a'] =
          (exCat.search ['c', 'a'] (5 * 2) ++ added).take 5 ∧
        (∀ w ∈ added, lower w ≠ lower ['c', 'a']) ∧
        List.Pairwise (fun a b => lower a ≠ lower b) (getSuggestions exCat 5 2 ['c', 'a']) :=
  ⟨by decide, by decide, c5_getSuggestions_merge exCat 5 2 ['c', 'a'] (by decide) (by decide)⟩

/-- Counterexample for C6 as stated: `part_000`'s insert has no
minimum-length or whitespace guard — inserting the 1-character word "a"
observably changes the trie — and a whitespace-only query is not mapped to
an empty result: on the trie {"a"}, searchFuzzy(" ", 1, 5) returns
[("a", 1)]. -/
theorem c6_counterexample :
    (Trie.empty.insert ['a']).search ['a'] 1 = [['a']] ∧
      (Trie.empty.insert ['a']).searchFuzzy [' '] 1 5 = [(['a'], 1)] := by
  refine ⟨by decide, by decide⟩

/-- C6 (amended): degenerate input is never an error and degrades to a no-op
or an empty result exactly for the empty string: insert("") leaves the trie
unchanged, and search and searchFuzzy of the empty query return the empty
list; all operations are total functions of their inputs (the embedding
models every code path without exceptions). Whitespace-only and
below-minimum-length inputs are not guarded in `part_000` (see the
counterexample). -/
theorem c6_degenerate :
    (∀ t : Trie, t.insert [] = t) ∧
    (∀ (t : Trie) (limit : Nat), t.search [] limit = []) ∧
    (∀ (t : Trie) (k limit : Nat), t.searchFuzzy [] k limit = []) := by
  refine ⟨?_, ?_, ?_⟩
  · intro t
    unfold Trie.insert
    rw [if_pos rfl]
  · intro t limit
    unfold Trie.search
    rw [if_pos rfl]
  · intro t k limit
    unfold Trie.searchFuzzy
    rw [if_pos rfl]

/-- C7: starting from the empty main.js trie, after any sequence of insert
and remove calls every node below the root has a non-empty children map or a
set word flag (no dead node survives, by `_removeHelper`'s bottom-up
pruning); in particular insert(W) followed by remove(W) restores the empty
trie exactly, so no search over any prefix returns W and no node of W's path
remains. -/
theorem c7_removal_invariant :
    (∀ ops : List Op2, pruned (applyOps ops Trie2.empty) = true) ∧
    (∀ (w : List Char) (f : Nat), Trie2.remove (Trie2.insert Trie2.empty w f) w =
      Trie2.empty) ∧
    (∀ (w p : List Char) (f n : Nat) (excl : Option (List Char)),
      (Trie2.remove (Trie2.insert Trie2.empty w f) w).search p n excl = []) := by
  refine ⟨fun ops => applyOps_pruned ops Trie2.empty pruned_empty, insert2_remove2_empty, ?_⟩
  intro w p f n excl
  rw [insert2_remove2_empty w f]
  exact search2_empty p n excl

/-- C8: for any word W with length at least the configured minimum (any
non-empty W suffices, since `part_000`'s insert has no further guard) and
any prior trie content, after insert(W) a search for W with any n ≥ 1
includes W in its canonical lowercase form. -/
theorem c8_round_trip (t : Trie) (w : List Char) (n : Nat) (hw : w ≠ []) (hn : 1 ≤ n) :
    lower w ∈ (t.insert w).search w n := by
  unfold Trie.insert
  rw [if_neg hw]
  obtain ⟨u, hfind, hword⟩ := findNode_insertAux (lower w) t
  rw [search_eq_take (insertAux t (lower w)) w n u hw hfind]
  rw [wordsBelow_node u, hword, if_pos rfl, List.singleton_append]
  match n, hn with
  | m + 1, _ =>
    rw [List.take_succ_cons]
    exact List.mem_cons_self _ _

/-- Witness for C8: inserting "cat" into the empty trie and searching for
"cat" with n = 1 includes "cat". -/
theorem c8_witness :
    (['c', 'a', 't'] : List Char) ≠ [] ∧ 1 ≤ 1 ∧
      lower ['c', 'a', 't'] ∈ (Trie.empty.insert ['c', 'a', 't']).search ['c', 'a', 't'] 1 :=
  ⟨by decide, by decide, c8_round_trip Trie.empty ['c', 'a', 't'] 1 (by decide) (by decide)⟩

/-- C9: two invocations of getSuggestions (and likewise search and
searchFuzzy) with identical trie content and identical arguments return
identical ordered lists. In the embedding this is reflexivity, because the
JavaScript sources of nondeterminism are absent by specification — `Map`
iteration follows insertion order and `Array.prototype.sort` is stable — and
the model fixes both accordingly. -/
theorem c9_determinism :
    (∀ (t : Trie) (limit fuzzyEdits : Nat) (pre : List Char),
      getSuggestions t limit fuzzyEdits pre = getSuggestions t limit fuzzyEdits pre) ∧
    (∀ (t : Trie) (pre : List Char) (limit : Nat), t.search pre limit = t.search pre limit) ∧
    (∀ (t : Trie) (term : List Char) (k limit : Nat),
      t.searchFuzzy term k limit = t.searchFuzzy term k limit) :=
  ⟨fun _ _ _ _ => rfl, fun _ _ _ => rfl, fun _ _ _ _ => rfl⟩

/-- Counterexample for C10 as stated: the empty string equals its own
uppercasing and contains no letters, yet `part_000`'s matchCase guards
`if (!original) return word;` first, so matchCase("hello", "") returns
"hello" unchanged rather than "HELLO". -/
theorem c10_counterexample :
    ([] : List Char) = upper [] ∧
      matchCase ['h', 'e', 'l', 'l', 'o'] [] = ['h', 'e', 'l', 'l', 'o'] ∧
      matchCase ['h', 'e', 'l', 'l', 'o'] [] ≠ upper ['h', 'e', 'l', 'l', 'o'] := by
  refine ⟨by decide, by decide, by decide⟩

/-- C10 (amended): in matchCase the all-uppercase test takes precedence over
the capitalized-first-letter test: for every word and every NON-EMPTY
original that equals its own uppercasing — including a single uppercase
letter and letterless strings such as digit strings — matchCase returns the
word fully uppercased; the main.js variant, which lacks the empty-string
guard, satisfies this for every original including the empty string. The
claim is amended only by excluding the empty original for `part_000` (see
the counterexample). -/
theorem c10_matchCase_upper :
    (∀ word original : List Char, original ≠ [] → original = upper original →
      matchCase word original = upper word) ∧
    (∀ word original : List Char, original = upper original →
      matchCaseMain word original = upper word) := by
  constructor
  · intro word original hne heq
    unfold matchCase
    rw [if_neg hne, if_pos heq]
  · intro word original heq
    unfold matchCaseMain
    rw [if_pos heq]

/-- Witness for C10: matchCase("hello", "W") = "HELLO" (a single uppercase
letter) and matchCase("hello", "123") = "HELLO" (a digit string), both via
the theorem. -/
theorem c10_witness :
    (['W'] : List Char) ≠ [] ∧ (['W'] : List Char) = upper ['W'] ∧
      matchCase ['h', 'e', 'l', 'l', 'o'] ['W'] = upper ['h', 'e', 'l', 'l', 'o'] ∧
      (['1', '2', '3'] : List Char) = upper ['1', '2', '3'] ∧
      matchCase ['h', 'e', 'l', 'l', 'o'] ['1', '2', '3'] =
        upper ['h', 'e', 'l', 'l', 'o'] :=
  ⟨by decide, by decide, c10_matchCase_upper.1 ['h', 'e', 'l', 'l', 'o'] ['W'] (by decide)
    (by decide), by decide,
    c10_matchCase_upper.1 ['h', 'e', 'l', 'l', 'o'] ['1', '2', '3'] (by decide) (by decide)⟩
